import Mathlib

/-!
Verification of the merovingian IMDb title-identification engine.

A shallow embedding, in Lean 4, of the core of `src/imdb/src/index.rs`
(together with `util.rs` and `title.rs`): the tokenizer, the corpus
filters, the inverted-index build, the binary snapshot encoding, and the
multi-stage `lookup` ranking algorithm.

Modelling conventions:
* Rust strings are `List Char`; `str::to_lowercase` is `List.map
  Char.toLower` (ASCII lowering; the engine's inputs are ASCII titles).
* `HashMap`/`HashSet` are association lists / lists without duplicates,
  with insertion-order iteration as the canonical order; wherever the
  Rust code iterates a hash table in unspecified order the iteration
  order is an explicit parameter so that order-(in)dependence can be
  stated and settled.
* `f64` scores are exact rationals `ℚ`; all score arithmetic in the
  engine is division and multiplication of small nonnegative values, so
  every value is a well-defined rational (this is what makes the `NonNan`
  wrapper's panic branch unreachable).
* Machine integers (`u16`, `u32`, `u64`, `i32`) are `Nat`/`Int`; the
  snapshot encoding states its width constraints explicitly.
* A Rust panic (indexing a missing key, `NonNan::new` on NaN) is the
  `none` case of an `Option`-valued result.
-/

namespace Merovingian

attribute [local semireducible] Rat.mul Rat.inv Rat.add Rat.sub

/-- Rust `&str` / `String` as a list of characters. -/
abbrev Str := List Char

/-- `str::to_lowercase` (ASCII fragment). -/
def toLowerStr (s : Str) : Str := s.map Char.toLower

/-! ## Tokenizer (`index.rs`: `tag_splitter`, `ignored`, `text_to_tags`) -/

/-- `fn tag_splitter(c: char) -> bool` from `index.rs`.  Whitespace, ASCII
control characters, the `filter_path` punctuation set, and the extra
separators `_ - . , ' ( )`. -/
def tag_splitter (c : Char) : Bool :=
  c.isWhitespace ||
  (c.toNat ≤ 0x1f || c.toNat == 0x7f) ||
  (c == '/' || c == '<' || c == '>' || c == ':' || c == '"' || c == '\\' ||
   c == '|' || c == '?' || c == '*' ||
   c == '_' || c == '-' || c == '.' || c == ',' || c == '\'' ||
   c == '(' || c == ')')

/-- `fn ignored(tag: &str) -> bool` from `index.rs`: the stopword set. -/
def ignored (tag : Str) : Bool :=
  tag == "a".toList || tag == "an".toList || tag == "the".toList ||
  tag == "of".toList || tag == "in".toList || tag == "on".toList ||
  tag == "to".toList || tag == "t".toList || tag == "s".toList

/-- Rust `str::split(pred)`: fragments between separator characters,
empty fragments included (consecutive separators yield empty fragments,
as do leading and trailing ones). -/
def splitP (p : Char → Bool) : Str → List Str
  | [] => [[]]
  | c :: rest =>
    if p c then [] :: splitP p rest
    else
      match splitP p rest with
      | [] => [[c]]
      | f :: fs => (c :: f) :: fs

/-- The tail of `Vec::dedup`: drop elements equal to the previous kept
element, keep the others. -/
def dedup_run (prev : Str) : List Str → List Str
  | [] => []
  | x :: xs => if x = prev then dedup_run prev xs else x :: dedup_run x xs

/-- Rust `Vec::dedup`: removes *consecutive* duplicates, keeping the
first element of each run. -/
def vec_dedup : List Str → List Str
  | [] => []
  | a :: rest => a :: dedup_run a rest

/-- `fn text_to_tags(text, tags)` from `index.rs`: lowercase, split on
`tag_splitter`, keep the non-empty non-stopword fragments, then
`Vec::dedup` (adjacent deduplication). -/
def text_to_tags (text : Str) : List Str :=
  vec_dedup ((splitP tag_splitter (toLowerStr text)).filter
    (fun t => !t.isEmpty && !ignored t))

/-! ## Records (`title.rs`) -/

/-- `enum TitleKind` from `title.rs`. -/
inductive TitleKind where
  | Movie
  | TvMovie
  | Video
  | Short
deriving DecidableEq, Repr

/-- `struct Title` from `title.rs`.  `id` and `votes` are `u32`, `year`
and `runtime` are `u16` (the accessor `year()` casts to `i32`). -/
structure Title where
  id : Nat
  year : Nat
  runtime : Nat
  primary_title : Str
  original_title : Option Str
  kind : TitleKind
  votes : Nat
deriving DecidableEq, Repr

/-! ## Hash-table models -/

/-- `HashMap<u32, Title>` as an association list in insertion order. -/
abbrev TitleTable := List (Nat × Title)

/-- `HashMap<String, HashSet<u32>>` as an association list in insertion
order; each bucket is a duplicate-free list in insertion order. -/
abbrev Index := List (Str × List Nat)

/-- `HashMap::get` on the title table. -/
def tableLookup (tbl : TitleTable) (id : Nat) : Option Title :=
  (tbl.find? (fun p => p.1 == id)).map Prod.snd

/-- `HashMap::get` on the inverted index. -/
def indexLookup (idx : Index) (tag : Str) : Option (List Nat) :=
  (idx.find? (fun p => p.1 == tag)).map Prod.snd

/-- `HashMap::insert` (overwrites the value, keeps the key position). -/
def tableInsert (tbl : TitleTable) (k : Nat) (v : Title) : TitleTable :=
  if tbl.any (fun p => p.1 == k) then
    tbl.map (fun p => if p.1 == k then (p.1, v) else p)
  else tbl ++ [(k, v)]

/-- `HashSet::insert`: a no-op when the element is present. -/
def setInsert (s : List Nat) (id : Nat) : List Nat :=
  if s.contains id then s else s ++ [id]

/-- `index.entry(tag).or_insert_with(HashSet::new).insert(id)`. -/
def indexInsert (idx : Index) (tag : Str) (id : Nat) : Index :=
  if idx.any (fun p => p.1 == tag) then
    idx.map (fun p => if p.1 == tag then (p.1, setInsert p.2 id) else p)
  else idx ++ [(tag, setInsert [] id)]

/-! ## `Counter` (`util.rs`)

`Counter` wraps a `HashMap<&Title, u32>`; `Title`'s `Hash`/`PartialEq`
impls use only `id`, so the counter is keyed by `id`, and `entry(..)`
keeps the first title inserted for a given id. -/

/-- One `(key, count)` table in insertion order. -/
abbrev CounterT := List (Title × Nat)

/-- `Counter::add`: `*self.inner.entry(key).or_insert(0) += 1`. -/
def counter_add (c : CounterT) (t : Title) : CounterT :=
  if c.any (fun p => p.1.id == t.id) then
    c.map (fun p => if p.1.id == t.id then (p.1, p.2 + 1) else p)
  else c ++ [(t, 1)]

/-- The loop body of `Counter::most_common`, with the accumulated
`most_common` vector and `most_count`. -/
def most_common_aux : CounterT → List Title → Nat → List Title
  | [], acc, _ => acc
  | (k, c) :: rest, acc, mc =>
    if c = mc then most_common_aux rest (acc ++ [k]) mc
    else if c ≥ mc then most_common_aux rest [k] c
    else most_common_aux rest acc mc

/-- `Counter::most_common` from `util.rs`, iterating the counter's
entries in the given order. -/
def most_common (l : CounterT) : List Title := most_common_aux l [] 0

/-! ## Jaro similarity (the `strsim` dependency)

`strsim::jaro`, character-window matching with consumed flags, with the
`b_match_index` transposition count.  `f64` is replaced by `ℚ`. -/

/-- The inner `for (j, b_char)` scan: find the first not-yet-consumed
position `j ∈ [lo, hi]` of `b` holding `c`; mark it consumed. -/
def find_in_window : List (Char × Bool) → Nat → Nat → Nat → Char →
    Option (Nat × List (Char × Bool))
  | [], _, _, _, _ => none
  | (bc, consumed) :: rest, j, lo, hi, c =>
    if lo ≤ j ∧ j ≤ hi ∧ bc = c ∧ consumed = false then
      some (j, (bc, true) :: rest)
    else
      (find_in_window rest (j + 1) lo hi c).map
        (fun r => (r.1, (bc, consumed) :: r.2))

/-- The outer `for (i, a_char)` loop of `strsim::jaro`: returns the
match count and transposition count.  Arguments: remaining `a`-chars,
current index `i`, search range, `b` with consumed flags, last matched
`b` index, matches so far, transpositions so far. -/
def jaro_loop : List Char → Nat → Nat → List (Char × Bool) → Nat → Nat →
    Nat → Nat × Nat
  | [], _, _, _, _, m, t => (m, t)
  | c :: rest, i, sr, bcs, bmi, m, t =>
    let lo := if i > sr then i - sr else 0
    let hi := min (bcs.length - 1) (i + sr)
    if lo > hi then jaro_loop rest (i + 1) sr bcs bmi m t
    else
      match find_in_window bcs 0 lo hi c with
      | none => jaro_loop rest (i + 1) sr bcs bmi m t
      | some (j, bcs') =>
        jaro_loop rest (i + 1) sr bcs' j (m + 1) (if j < bmi then t + 1 else t)

/-- `strsim::jaro` over `ℚ`: 1 on equal strings, 0 when either side is
empty or no character matches within the search window, otherwise the
mean of `m/|a|`, `m/|b|` and `(m - t)/m`. -/
def jaro (a b : Str) : ℚ :=
  if a = b then 1
  else if a.length = 0 ∨ b.length = 0 then 0
  else if a.length = 1 ∧ b.length = 1 then 0
  else
    let sr := max a.length b.length / 2 - 1
    let mt := jaro_loop a 0 sr (b.map (fun c => (c, false))) 0 0 0
    if mt.1 = 0 then 0
    else
      ((mt.1 : ℚ) / a.length + (mt.1 : ℚ) / b.length +
        ((mt.1 : ℚ) - mt.2) / mt.1) / 3

/-! ## Scoring (`Imdb::lookup`'s `scoring_func`) -/

/-- The base similarity of `scoring_func`: the Jaro similarity between
the lowercased primary title and the query text, or, when an original
title is stored, the greater of the two similarities.  Note that only
the title side is lowercased — the query text is compared as given. -/
def base_score (text : Str) (t : Title) : ℚ :=
  match t.original_title with
  | none => jaro (toLowerStr t.primary_title) text
  | some o =>
    max (jaro (toLowerStr t.primary_title) text) (jaro (toLowerStr o) text)

/-- The year multiplier of `scoring_func`: `0.85` when a query year is
provided and differs from the record's year, else `1`. -/
def year_mult (year : Option Int) (t : Title) : ℚ :=
  match year with
  | none => 1
  | some y => if (t.year : Int) ≠ y then 85 / 100 else 1

/-- The kind multiplier of `scoring_func`: `1` for `Movie`, `0.80`
otherwise. -/
def kind_mult (t : Title) : ℚ :=
  match t.kind with
  | TitleKind.Movie => 1
  | _ => 80 / 100

/-- `scoring_func` from `Imdb::lookup`. -/
def scoring_func (text : Str) (year : Option Int) (t : Title) : ℚ :=
  base_score text t * year_mult year t * kind_mult t

/-! ## Stable sorting (`Vec::sort_by_key`)

Rust's `sort_by_key` is a stable sort; a stable sort's output is the
unique sorted permutation preserving the relative order of equivalent
elements, so any stable sorting algorithm is a faithful model.  We use
a structurally recursive stable insertion sort (each element is placed
after all earlier elements less than or equal to it). -/

/-- Insert `a` after every element `b` of the (sorted) list with
`le b a`. -/
def insert_stable (le : α → α → Bool) (a : α) : List α → List α
  | [] => [a]
  | b :: t => if le b a then b :: insert_stable le a t else a :: b :: t

/-- Stable sort with respect to the boolean total preorder `le`. -/
def sort_stable (le : α → α → Bool) (l : List α) : List α :=
  l.foldl (fun acc a => insert_stable le a acc) []

/-- `sort_by_key(|m| Reverse(m.score))`: descending by score. -/
def score_le (x y : ℚ × Title) : Bool := decide (y.1 ≤ x.1)

/-- `sort_by_key(|m| Reverse(m.title.votes()))`: descending by votes. -/
def votes_le (x y : ℚ × Title) : Bool := decide (y.2.votes ≤ x.2.votes)

/-! ## `Imdb` and `lookup` (`index.rs`) -/

/-- `struct Imdb`: the record table and the inverted index. -/
structure Imdb where
  titles : TitleTable
  index : Index
deriving DecidableEq, Repr

/-- The year-window filter inside `lookup`'s counting loop: keep a
candidate iff no query year is given or
`(year - title.year()).abs() <= 1`. -/
def year_ok (year : Option Int) (t : Title) : Bool :=
  match year with
  | none => true
  | some y => (y - (t.year : Int)).natAbs ≤ 1

/-- The inner `for title_id in title_ids` loop of `lookup`: fetch each
title (`none` models the panic of `self.titles[title_id]` on a missing
id), apply the year window, count the survivors. -/
def gather_ids (imdb : Imdb) (year : Option Int) :
    List Nat → CounterT → Option CounterT
  | [], c => some c
  | id :: rest, c =>
    match tableLookup imdb.titles id with
    | none => none
    | some t =>
      gather_ids imdb year rest (if year_ok year t then counter_add c t else c)

/-- The outer `for tag in tags` loop of `lookup`. -/
def gather_tags (imdb : Imdb) (year : Option Int) :
    List Str → CounterT → Option CounterT
  | [], c => some c
  | tag :: rest, c =>
    match indexLookup imdb.index tag with
    | none => gather_tags imdb year rest c
    | some ids =>
      match gather_ids imdb year ids c with
      | none => none
      | some c' => gather_tags imdb year rest c'

/-- The counting phase of `lookup`: the occurrence counter built from
the query tags, or `none` if a bucket id misses the record table. -/
def gather_counts (imdb : Imdb) (tags : List Str) (year : Option Int) :
    Option CounterT :=
  gather_tags imdb year tags []

/-- The ranking phase of `lookup` (steps 4–6): score the retained
records, sort by score descending, collect the approximate-tie band
(`take_while` within `0.01` of the best, then the best itself), sort the
band by votes descending, return its head. -/
def rank (text : Str) (year : Option Int) (cands : List Title) :
    Option Title :=
  let scored := cands.map (fun t => (scoring_func text year t, t))
  let sorted := sort_stable score_le scored
  match sorted with
  | [] => none
  | best :: rest =>
    let candidates :=
      rest.takeWhile (fun m => decide (|best.1 - m.1| ≤ 1 / 100)) ++ [best]
    let sorted2 := sort_stable votes_le candidates
    sorted2.head?.map Prod.snd

/-- `Imdb::lookup`, parameterized by the iteration order of the
occurrence counter's hash table: `reorder` stands for the unspecified
order in which `Counter::most_common` visits the freshly created
`HashMap`'s entries, and is constrained to a permutation wherever a
theorem relies on it.  The outer `Option` is the panic case of
`self.titles[title_id]`. -/
def Imdb.lookupWith (imdb : Imdb) (text : Str) (year : Option Int)
    (reorder : CounterT → CounterT) : Option (Option Title) :=
  let tags := text_to_tags text
  match gather_counts imdb tags year with
  | none => none
  | some c => some (rank text year (most_common (reorder c)))

/-- `Imdb::lookup` with the canonical (insertion-order) iteration. -/
def Imdb.lookup (imdb : Imdb) (text : Str) (year : Option Int) :
    Option (Option Title) :=
  imdb.lookupWith text year (fun c => c)

/-! ## Inverted-index build (`build_reverse_index`) -/

/-- The `index_title` closure: insert the record's id into the bucket of
every tag of one title text. -/
def index_title (idx : Index) (id : Nat) (text : Str) : Index :=
  (text_to_tags text).foldl (fun idx tag => indexInsert idx tag id) idx

/-- One iteration of `build_reverse_index`'s loop over
`titles.values()`: index the primary title and, when an original title
is present and differs, the original title. -/
def index_one (idx : Index) (t : Title) : Index :=
  let idx := index_title idx t.id t.primary_title
  match t.original_title with
  | none => idx
  | some o => if t.primary_title = o then idx else index_title idx t.id o

/-- `fn build_reverse_index` from `index.rs`, iterating the record table
values in the given order. -/
def build_reverse_index (titles : List Title) : Index :=
  titles.foldl index_one []

/-- Bucket membership: `id` is in the index's bucket for `tag`. -/
def bucketMemB (idx : Index) (tag : Str) (id : Nat) : Bool :=
  match indexLookup idx tag with
  | none => false
  | some b => b.contains id

/-! ## Corpus reader (`read_votes`, `read_titles`)

The CSV/gzip plumbing is external; a row is modelled by its parsed
fields (`parse_none` results are `Option`s). -/

/-- One row of `title.ratings.tsv`: the numeric id (the `tt`-prefix is
already stripped) and the vote count. -/
structure RatingsRow where
  id : Nat
  votes : Nat
deriving DecidableEq, Repr

/-- One row of `title.basics.tsv`, with the fields `read_titles`
consumes.  `is_adult`, `year` and `runtime` are `parse_none` results. -/
structure BasicsRow where
  id : Nat
  kind_str : Str
  primary_title : Str
  original_title : Str
  is_adult : Option Nat
  year : Option Nat
  runtime : Option Nat
deriving DecidableEq, Repr

/-- `fn read_votes`: keep `(id, votes)` iff `votes >= 50`. -/
def read_votes (rows : List RatingsRow) : List (Nat × Nat) :=
  rows.foldl
    (fun tbl r =>
      if r.votes ≥ 50 then
        (if tbl.any (fun p => p.1 == r.id) then
          tbl.map (fun p => if p.1 == r.id then (p.1, r.votes) else p)
        else tbl ++ [(r.id, r.votes)])
      else tbl)
    []

/-- `HashMap::get` on the votes table. -/
def votesLookup (tbl : List (Nat × Nat)) (id : Nat) : Option Nat :=
  (tbl.find? (fun p => p.1 == id)).map Prod.snd

/-- The `match kind` of `read_titles`: only `movie`, `tvMovie`, `video`
and `short` survive. -/
def parse_kind (s : Str) : Option TitleKind :=
  if s = "movie".toList then some TitleKind.Movie
  else if s = "tvMovie".toList then some TitleKind.TvMovie
  else if s = "video".toList then some TitleKind.Video
  else if s = "short".toList then some TitleKind.Short
  else none

/-- One iteration of `read_titles`'s row loop, with every
`some_or_continue!` / `continue` as an identity step: skip adult rows,
rows of other kinds, rows with a missing or zero year or runtime, and
rows whose id is absent from the votes table; otherwise build the
`Title` (no separate original title when it equals the primary one) and
insert it under its id. -/
def read_titles_row (votes_table : List (Nat × Nat)) (tbl : TitleTable)
    (row : BasicsRow) : TitleTable :=
  match row.is_adult with
  | none => tbl
  | some adult =>
    if adult = 1 then tbl
    else
      match parse_kind row.kind_str with
      | none => tbl
      | some kind =>
        match row.year, row.runtime with
        | some year, some runtime =>
          if year = 0 ∨ runtime = 0 then tbl
          else
            match votesLookup votes_table row.id with
            | none => tbl
            | some votes =>
              tableInsert tbl row.id
                { id := row.id
                  year := year
                  runtime := runtime
                  primary_title := row.primary_title
                  original_title :=
                    if row.primary_title = row.original_title then none
                    else some row.original_title
                  kind := kind
                  votes := votes }
        | _, _ => tbl

/-- `fn read_titles` from `index.rs`. -/
def read_titles (rows : List BasicsRow) (votes_table : List (Nat × Nat)) :
    TitleTable :=
  rows.foldl (read_titles_row votes_table) []

/-- `Imdb::create_index`: the whole build pipeline, from parsed ratings
and basics rows to the record table and inverted index. -/
def create_index (ratings : List RatingsRow) (basics : List BasicsRow) :
    Imdb :=
  let votes_table := read_votes ratings
  let titles := read_titles basics votes_table
  { titles := titles
    index := build_reverse_index (titles.map Prod.snd) }

/-! ## Tokenizer lemmas and claim C3 -/

theorem mem_dedup_run {x prev : Str} {l : List Str} :
    x ∈ dedup_run prev l → x ∈ l := by
  induction l generalizing prev with
  | nil => simp [dedup_run]
  | cons a t ih =>
    intro hx
    simp only [dedup_run] at hx
    by_cases h : a = prev
    · simp only [h, if_pos rfl] at hx
      exact List.mem_cons_of_mem _ (ih hx)
    · simp only [if_neg h, List.mem_cons] at hx
      rcases hx with hx | hx
      · exact hx ▸ List.mem_cons_self _ _
      · exact List.mem_cons_of_mem _ (ih hx)

theorem mem_vec_dedup {x : Str} {l : List Str} :
    x ∈ vec_dedup l → x ∈ l := by
  cases l with
  | nil => simp [vec_dedup]
  | cons a t =>
    intro hx
    simp only [vec_dedup, List.mem_cons] at hx
    rcases hx with hx | hx
    · exact hx ▸ List.mem_cons_self _ _
    · exact List.mem_cons_of_mem _ (mem_dedup_run hx)

theorem chain_dedup_run (prev : Str) (l : List Str) :
    List.Chain' (· ≠ ·) (prev :: dedup_run prev l) := by
  induction l generalizing prev with
  | nil => simp [dedup_run]
  | cons a t ih =>
    simp only [dedup_run]
    by_cases h : a = prev
    · simpa [h] using ih prev
    · rw [if_neg h]
      refine List.Chain'.cons ?_ (ih a)
      exact fun hpa => h hpa.symm

theorem chain_vec_dedup (l : List Str) :
    List.Chain' (· ≠ ·) (vec_dedup l) := by
  cases l with
  | nil => simp [vec_dedup]
  | cons a t => exact chain_dedup_run a t

/-- Claim C3. Amended: for every input text, every tag produced by
`text_to_tags` is non-empty and is not a stopword, and no two *adjacent*
output tags are equal (Rust's `Vec::dedup` removes only consecutive
duplicates) — but, contrary to the claim, a tag may repeat at
non-adjacent positions. -/
theorem text_to_tags_sound (text : Str) :
    (∀ tag ∈ text_to_tags text, tag ≠ [] ∧ ignored tag = false) ∧
    List.Chain' (· ≠ ·) (text_to_tags text) := by
  constructor
  · intro tag htag
    have hmem := mem_vec_dedup htag
    have hp := List.of_mem_filter hmem
    simp only [Bool.and_eq_true, Bool.not_eq_true'] at hp
    refine ⟨?_, hp.2⟩
    intro hnil
    rw [hnil] at hp
    simp [List.isEmpty] at hp
  · exact chain_vec_dedup _

/-- Claim C3, witness for the amended theorem at a concrete input. -/
theorem text_to_tags_sound_witness :
    "abc".toList ∈ text_to_tags "x abc".toList ∧
    ("abc".toList ≠ [] ∧ ignored "abc".toList = false) ∧
    List.Chain' (· ≠ ·) (text_to_tags "x abc".toList) :=
  ⟨by decide, (text_to_tags_sound "x abc".toList).1 _ (by decide),
    (text_to_tags_sound "x abc".toList).2⟩

/-- Claim C3, counterexample to the claim as stated: tokenizing
`"abc xyz abc"` yields the tag `abc` twice (at non-adjacent positions),
so the output is *not* globally deduplicated. -/
theorem text_to_tags_counterexample :
    ¬ (text_to_tags "abc xyz abc".toList).Nodup := by decide

/-! ## Inverted-index lemmas and claim C6 -/

/-- The tags a record contributes to the index: tags of its primary
title and, when an original title is present and differs, tags of the
original title. -/
def title_has_tag (t : Title) (tag : Str) : Bool :=
  decide (tag ∈ text_to_tags t.primary_title) ||
  (match t.original_title with
   | none => false
   | some o =>
     if t.primary_title = o then false
     else decide (tag ∈ text_to_tags o))

theorem indexLookup_nil (tag : Str) : indexLookup [] tag = none := rfl

theorem indexLookup_cons (p : Str × List Nat) (rest : Index) (tag : Str) :
    indexLookup (p :: rest) tag =
      if p.1 = tag then some p.2 else indexLookup rest tag := by
  by_cases h : p.1 = tag <;> simp [indexLookup, List.find?_cons, h]

theorem mem_setInsert (s : List Nat) (id id' : Nat) :
    id' ∈ setInsert s id ↔ id' = id ∨ id' ∈ s := by
  by_cases h : s.contains id
  · have hm : id ∈ s := by simpa using h
    simp only [setInsert, if_pos h]
    constructor
    · exact fun hx => Or.inr hx
    · rintro (rfl | hx)
      · exact hm
      · exact hx
  · simp only [setInsert, if_neg h, List.mem_append, List.mem_singleton]
    tauto

theorem indexInsert_cons_ne (p : Str × List Nat) (rest : Index)
    (tag : Str) (id : Nat) (hp : p.1 ≠ tag) :
    indexInsert (p :: rest) tag id = p :: indexInsert rest tag id := by
  have hpb : (p.1 == tag) = false := by simp [hp]
  by_cases hr : rest.any (fun q => q.1 == tag)
  · simp [indexInsert, List.any_cons, hpb, hr, hp]
  · have hr' : rest.any (fun q => q.1 == tag) = false :=
      Bool.eq_false_iff.mpr hr
    simp [indexInsert, List.any_cons, hpb, hr', hp]

theorem indexLookup_indexInsert_self (idx : Index) (tag : Str) (id : Nat) :
    indexLookup (indexInsert idx tag id) tag =
      some (setInsert ((indexLookup idx tag).getD []) id) := by
  induction idx with
  | nil =>
    have h0 : indexInsert [] tag id = [(tag, setInsert [] id)] := rfl
    rw [h0, indexLookup_cons, if_pos rfl]
    rfl
  | cons p rest ih =>
    by_cases hp : p.1 = tag
    · have hany : (p :: rest).any (fun q => q.1 == tag) = true := by
        simp [List.any_cons, hp]
      simp only [indexInsert, if_pos hany, List.map_cons]
      rw [indexLookup_cons, indexLookup_cons]
      simp [hp]
    · rw [indexInsert_cons_ne p rest tag id hp, indexLookup_cons,
        if_neg hp, indexLookup_cons, if_neg hp, ih]

theorem indexLookup_map_update (rest : Index) (tag tag' : Str) (id : Nat)
    (h : tag' ≠ tag) :
    indexLookup
        (rest.map (fun q => if q.1 == tag then (q.1, setInsert q.2 id) else q))
        tag' =
      indexLookup rest tag' := by
  induction rest with
  | nil => rfl
  | cons q qs ih =>
    rw [List.map_cons]
    have hfst :
        ((if q.1 == tag then (q.1, setInsert q.2 id) else q) :
          Str × List Nat).1 = q.1 := by
      by_cases hq : (q.1 == tag) = true <;> simp [hq]
    rw [indexLookup_cons, indexLookup_cons, hfst]
    by_cases hq' : q.1 = tag'
    · rw [if_pos hq', if_pos hq']
      have hqne : q.1 ≠ tag := by
        intro hh
        exact h (by rw [← hq']; exact hh)
      have hqb : (q.1 == tag) = false := by simp [hqne]
      simp [hqb]
    · rw [if_neg hq', if_neg hq', ih]

theorem indexLookup_indexInsert_other (idx : Index) (tag tag' : Str)
    (id : Nat) (h : tag' ≠ tag) :
    indexLookup (indexInsert idx tag id) tag' = indexLookup idx tag' := by
  induction idx with
  | nil =>
    have h0 : indexInsert [] tag id = [(tag, setInsert [] id)] := rfl
    rw [h0, indexLookup_cons, if_neg (fun hh => h hh.symm)]
  | cons p rest ih =>
    by_cases hp : p.1 = tag
    · have hany : (p :: rest).any (fun q => q.1 == tag) = true := by
        simp [List.any_cons, hp]
      simp only [indexInsert, if_pos hany, List.map_cons]
      have hpb : (p.1 == tag) = true := by simp [hp]
      have hhead :
          (if (p.1 == tag) = true then (p.1, setInsert p.2 id) else p) =
            (p.1, setInsert p.2 id) := by rw [if_pos hpb]
      rw [hhead, indexLookup_cons, indexLookup_cons]
      have hne : ¬ p.1 = tag' := fun hh => h (by rw [← hh, hp])
      rw [if_neg hne, if_neg hne]
      exact indexLookup_map_update rest tag tag' id h
    · rw [indexInsert_cons_ne p rest tag id hp, indexLookup_cons,
        indexLookup_cons, ih]

theorem bucketMemB_indexInsert (idx : Index) (tag tag' : Str)
    (id id' : Nat) :
    bucketMemB (indexInsert idx tag id) tag' id' = true ↔
      (tag' = tag ∧ id' = id) ∨ bucketMemB idx tag' id' = true := by
  by_cases h : tag' = tag
  · subst h
    rw [show bucketMemB (indexInsert idx tag' id) tag' id' =
        (match indexLookup (indexInsert idx tag' id) tag' with
         | none => false
         | some b => b.contains id') from rfl,
      indexLookup_indexInsert_self]
    cases hb : indexLookup idx tag' with
    | none =>
      simp only [hb, Option.getD_none]
      simp [bucketMemB, hb, List.elem_iff, mem_setInsert]
    | some b =>
      simp only [hb, Option.getD_some]
      simp [bucketMemB, hb, List.elem_iff, mem_setInsert]
  · rw [show bucketMemB (indexInsert idx tag id) tag' id' =
        (match indexLookup (indexInsert idx tag id) tag' with
         | none => false
         | some b => b.contains id') from rfl,
      indexLookup_indexInsert_other idx tag tag' id h]
    simp [bucketMemB, h]

theorem bucketMemB_nil (tag : Str) (id : Nat) :
    bucketMemB [] tag id = false := rfl

theorem bucketMemB_foldl_insert (tags : List Str) (idx : Index) (i : Nat)
    (tag : Str) (id : Nat) :
    bucketMemB (tags.foldl (fun acc tg => indexInsert acc tg i) idx) tag id
        = true ↔
      (tag ∈ tags ∧ id = i) ∨ bucketMemB idx tag id = true := by
  induction tags generalizing idx with
  | nil => simp
  | cons tg rest ih =>
    simp only [List.foldl_cons]
    rw [ih, bucketMemB_indexInsert]
    simp only [List.mem_cons]
    tauto

theorem bucketMemB_index_title (idx : Index) (i : Nat) (text : Str)
    (tag : Str) (id : Nat) :
    bucketMemB (index_title idx i text) tag id = true ↔
      (tag ∈ text_to_tags text ∧ id = i) ∨ bucketMemB idx tag id = true :=
  bucketMemB_foldl_insert (text_to_tags text) idx i tag id

theorem bucketMemB_index_one (idx : Index) (t : Title) (tag : Str)
    (id : Nat) :
    bucketMemB (index_one idx t) tag id = true ↔
      (title_has_tag t tag = true ∧ id = t.id) ∨
        bucketMemB idx tag id = true := by
  cases ho : t.original_title with
  | none =>
    simp only [index_one, title_has_tag, ho]
    rw [bucketMemB_index_title]
    simp
  | some o =>
    by_cases hpo : t.primary_title = o
    · simp only [index_one, title_has_tag, ho, if_pos hpo]
      rw [bucketMemB_index_title]
      simp
    · simp only [index_one, title_has_tag, ho, if_neg hpo]
      rw [index_title, bucketMemB_foldl_insert, bucketMemB_index_title]
      simp only [Bool.or_eq_true, decide_eq_true_eq]
      tauto

theorem bucketMemB_build_aux (titles : List Title) (idx : Index)
    (tag : Str) (id : Nat) :
    bucketMemB (titles.foldl index_one idx) tag id = true ↔
      (∃ t ∈ titles, title_has_tag t tag = true ∧ id = t.id) ∨
        bucketMemB idx tag id = true := by
  induction titles generalizing idx with
  | nil => simp
  | cons t rest ih =>
    simp only [List.foldl_cons]
    rw [ih, bucketMemB_index_one]
    simp only [List.mem_cons]
    constructor
    · rintro (⟨u, hu, hh⟩ | (hh | hidx))
      · exact Or.inl ⟨u, Or.inr hu, hh⟩
      · exact Or.inl ⟨t, Or.inl rfl, hh⟩
      · exact Or.inr hidx
    · rintro (⟨u, (rfl | hu), hh⟩ | hidx)
      · exact Or.inr (Or.inl hh)
      · exact Or.inl ⟨u, hu, hh⟩
      · exact Or.inr (Or.inr hidx)

/-- Characterization of the inverted index: `id` sits in the bucket of
`tag` iff some processed record has that id and contributes that tag. -/
theorem bucketMemB_build (titles : List Title) (tag : Str) (id : Nat) :
    bucketMemB (build_reverse_index titles) tag id = true ↔
      ∃ t ∈ titles, title_has_tag t tag = true ∧ id = t.id := by
  rw [build_reverse_index, bucketMemB_build_aux]
  simp [bucketMemB_nil]

theorem setInsert_ne_nil (s : List Nat) (id : Nat) : setInsert s id ≠ [] := by
  unfold setInsert
  by_cases h : s.contains id
  · rw [if_pos h]
    intro hnil
    rw [hnil] at h
    simp [List.contains] at h
  · rw [if_neg h]
    simp

theorem indexInsert_buckets_nonempty (idx : Index) (tag : Str) (id : Nat)
    (h : ∀ p ∈ idx, p.2 ≠ []) :
    ∀ p ∈ indexInsert idx tag id, p.2 ≠ [] := by
  intro p hp
  unfold indexInsert at hp
  by_cases hany : idx.any (fun q => q.1 == tag)
  · rw [if_pos hany] at hp
    obtain ⟨q, hq, hqe⟩ := List.mem_map.mp hp
    by_cases hqt : (q.1 == tag) = true
    · rw [if_pos hqt] at hqe
      rw [← hqe]
      exact setInsert_ne_nil _ _
    · rw [if_neg hqt] at hqe
      rw [← hqe]
      exact h q hq
  · rw [if_neg hany] at hp
    rcases List.mem_append.mp hp with hp | hp
    · exact h p hp
    · simp only [List.mem_singleton] at hp
      rw [hp]
      exact setInsert_ne_nil [] id

theorem foldl_insert_buckets_nonempty (tags : List Str) (idx : Index)
    (i : Nat) (h : ∀ p ∈ idx, p.2 ≠ []) :
    ∀ p ∈ tags.foldl (fun acc tg => indexInsert acc tg i) idx, p.2 ≠ [] := by
  induction tags generalizing idx with
  | nil => exact h
  | cons tg rest ih =>
    simp only [List.foldl_cons]
    exact ih _ (indexInsert_buckets_nonempty idx tg i h)

theorem build_buckets_nonempty (titles : List Title) :
    ∀ p ∈ build_reverse_index titles, p.2 ≠ [] := by
  rw [build_reverse_index]
  have main : ∀ (l : List Title) (idx : Index), (∀ p ∈ idx, p.2 ≠ []) →
      ∀ p ∈ l.foldl index_one idx, p.2 ≠ [] := by
    intro l
    induction l with
    | nil => intro idx h; exact h
    | cons t rest ih =>
      intro idx h
      simp only [List.foldl_cons]
      refine ih _ ?_
      cases ho : t.original_title with
      | none =>
        simp only [index_one, index_title, ho]
        exact foldl_insert_buckets_nonempty _ _ _ h
      | some o =>
        by_cases hpo : t.primary_title = o
        · simp only [index_one, index_title, ho, if_pos hpo]
          exact foldl_insert_buckets_nonempty _ _ _ h
        · simp only [index_one, index_title, ho, if_neg hpo]
          exact foldl_insert_buckets_nonempty _ _ _
            (foldl_insert_buckets_nonempty _ _ _ h)
  exact main titles [] (by simp)

theorem indexLookup_build_isSome_iff (titles : List Title) (tag : Str) :
    (indexLookup (build_reverse_index titles) tag).isSome = true ↔
      ∃ id, bucketMemB (build_reverse_index titles) tag id = true := by
  constructor
  · intro h
    obtain ⟨b, hb⟩ := Option.isSome_iff_exists.mp h
    have hment : ∀ q ∈ build_reverse_index titles, q.2 ≠ [] :=
      build_buckets_nonempty titles
    have hfind := hb
    unfold indexLookup at hfind
    obtain ⟨q, hq⟩ := Option.map_eq_some'.mp hfind
    have hqmem := List.mem_of_find?_eq_some hq.1
    have hne : q.2 ≠ [] := hment q hqmem
    obtain ⟨x, hx⟩ := List.exists_mem_of_ne_nil q.2 hne
    refine ⟨x, ?_⟩
    unfold bucketMemB
    rw [hb, ← hq.2]
    simpa [List.elem_iff] using hx
  · rintro ⟨id, hid⟩
    unfold bucketMemB at hid
    cases hb : indexLookup (build_reverse_index titles) tag with
    | none => rw [hb] at hid; simp at hid
    | some b => simp [hb]

/-- Claim C6. The inverted-index build is order-independent: processing
the record table's values in any two permuted orders yields an index
with the same tag keys and bucket-for-bucket identical id sets. -/
theorem build_reverse_index_order_independent (l1 l2 : List Title)
    (h : l1.Perm l2) (tag : Str) (id : Nat) :
    bucketMemB (build_reverse_index l1) tag id =
      bucketMemB (build_reverse_index l2) tag id ∧
    (indexLookup (build_reverse_index l1) tag).isSome =
      (indexLookup (build_reverse_index l2) tag).isSome := by
  have hmem : ∀ id', bucketMemB (build_reverse_index l1) tag id' =
      bucketMemB (build_reverse_index l2) tag id' := by
    intro id'
    rw [Bool.eq_iff_iff, bucketMemB_build, bucketMemB_build]
    constructor
    · rintro ⟨t, ht, hh⟩
      exact ⟨t, h.mem_iff.mp ht, hh⟩
    · rintro ⟨t, ht, hh⟩
      exact ⟨t, h.mem_iff.mpr ht, hh⟩
  refine ⟨hmem id, ?_⟩
  rw [Bool.eq_iff_iff, indexLookup_build_isSome_iff,
    indexLookup_build_isSome_iff]
  constructor
  · rintro ⟨id', hid⟩
    exact ⟨id', (hmem id') ▸ hid⟩
  · rintro ⟨id', hid⟩
    exact ⟨id', (hmem id').symm ▸ hid⟩

/-- Claim C6, witness at a concrete permutation. -/
theorem build_reverse_index_order_independent_witness :
    ([⟨1, 1999, 90, "ab".toList, none, TitleKind.Movie, 60⟩,
      ⟨2, 2001, 80, "ab cd".toList, none, TitleKind.Short, 70⟩] :
        List Title).Perm
      [⟨2, 2001, 80, "ab cd".toList, none, TitleKind.Short, 70⟩,
       ⟨1, 1999, 90, "ab".toList, none, TitleKind.Movie, 60⟩] ∧
    bucketMemB
        (build_reverse_index
          [⟨1, 1999, 90, "ab".toList, none, TitleKind.Movie, 60⟩,
           ⟨2, 2001, 80, "ab cd".toList, none, TitleKind.Short, 70⟩])
        "ab".toList 2 =
      bucketMemB
        (build_reverse_index
          [⟨2, 2001, 80, "ab cd".toList, none, TitleKind.Short, 70⟩,
           ⟨1, 1999, 90, "ab".toList, none, TitleKind.Movie, 60⟩])
        "ab".toList 2 :=
  ⟨by decide,
    (build_reverse_index_order_independent _ _ (by decide)
      "ab".toList 2).1⟩

/-! ## Claim C4: case sensitivity of the similarity score -/

/-- Claim C4. Amended: the string-similarity used by `lookup`'s scoring is
case-insensitive in the *record's titles* — the code lowercases the
primary (and original) title before the Jaro comparison, so two records
whose titles agree up to case score identically against any query — but
it is **not** invariant under case changes of the query text, which is
compared as given (the counterexample shows `"Matrix"` and `"matrix"`
scoring differently against the same record). -/
theorem scoring_func_title_case_insensitive (text : Str) (year : Option Int)
    (t1 t2 : Title)
    (hp : toLowerStr t1.primary_title = toLowerStr t2.primary_title)
    (ho : t1.original_title.map toLowerStr = t2.original_title.map toLowerStr)
    (hy : t1.year = t2.year) (hk : t1.kind = t2.kind) :
    scoring_func text year t1 = scoring_func text year t2 := by
  have hbase : base_score text t1 = base_score text t2 := by
    unfold base_score
    cases ho1 : t1.original_title with
    | none =>
      cases ho2 : t2.original_title with
      | none => rw [hp]
      | some o2 => rw [ho1, ho2] at ho; simp at ho
    | some o1 =>
      cases ho2 : t2.original_title with
      | none => rw [ho1, ho2] at ho; simp at ho
      | some o2 =>
        rw [ho1, ho2] at ho
        simp only [Option.map_some', Option.some.injEq] at ho
        dsimp only
        rw [hp, ho]
  have hyear : year_mult year t1 = year_mult year t2 := by
    unfold year_mult
    rw [hy]
  have hkind : kind_mult t1 = kind_mult t2 := by
    unfold kind_mult
    rw [hk]
  rw [scoring_func, scoring_func, hbase, hyear, hkind]

/-- Claim C4, witness: two records whose primary titles differ only in
case score identically. -/
theorem scoring_func_title_case_insensitive_witness :
    (toLowerStr ("Matrix".toList) = toLowerStr ("mATRIX".toList)) ∧
    scoring_func "matrix".toList none
        ⟨1, 1999, 90, "Matrix".toList, none, TitleKind.Movie, 100⟩ =
      scoring_func "matrix".toList none
        ⟨2, 1999, 90, "mATRIX".toList, none, TitleKind.Movie, 100⟩ :=
  ⟨by decide,
    scoring_func_title_case_insensitive "matrix".toList none
      ⟨1, 1999, 90, "Matrix".toList, none, TitleKind.Movie, 100⟩
      ⟨2, 1999, 90, "mATRIX".toList, none, TitleKind.Movie, 100⟩
      (by decide) (by decide) (by decide) (by decide)⟩

/-- Claim C4, counterexample to the claim as stated: changing the case of
the *query text* changes the similarity — the code lowercases only the
title side of the Jaro comparison, so `lookup` scoring of `"Matrix"`
differs from that of `"matrix"` against a record titled `"Matrix"`
(`8/9` versus `1`). -/
theorem scoring_func_query_case_counterexample :
    scoring_func "Matrix".toList none
        ⟨1, 1999, 90, "Matrix".toList, none, TitleKind.Movie, 100⟩ ≠
      scoring_func "matrix".toList none
        ⟨1, 1999, 90, "Matrix".toList, none, TitleKind.Movie, 100⟩ := by
  decide

/-! ## Jaro bounds and claim C10 -/

theorem find_in_window_spec :
    ∀ (bcs : List (Char × Bool)) (j0 lo hi : Nat) (c : Char) (j : Nat)
      (bcs' : List (Char × Bool)),
      find_in_window bcs j0 lo hi c = some (j, bcs') →
      bcs'.length = bcs.length ∧
        bcs'.countP (fun p => p.2) = bcs.countP (fun p => p.2) + 1 := by
  intro bcs
  induction bcs with
  | nil => intro j0 lo hi c j bcs' h; simp [find_in_window] at h
  | cons p rest ih =>
    intro j0 lo hi c j bcs' h
    obtain ⟨bc, consumed⟩ := p
    rw [find_in_window] at h
    by_cases hcond : lo ≤ j0 ∧ j0 ≤ hi ∧ bc = c ∧ consumed = false
    · rw [if_pos hcond] at h
      obtain ⟨-, hb⟩ := Prod.mk.injEq .. ▸ Option.some.injEq .. ▸ h
      obtain ⟨-, -, -, hc⟩ := hcond
      subst hc
      rw [← hb]
      constructor
      · simp
      · simp [List.countP_cons]
    · rw [if_neg hcond] at h
      cases hf : find_in_window rest (j0 + 1) lo hi c with
      | none => rw [hf] at h; simp at h
      | some r =>
        rw [hf] at h
        simp only [Option.map_some', Option.some.injEq] at h
        obtain ⟨r1, r2⟩ := r
        obtain ⟨hj, hb⟩ := Prod.mk.injEq .. ▸ h
        have hrec := ih (j0 + 1) lo hi c r1 r2 hf
        rw [← hb]
        constructor
        · simp [hrec.1]
        · simp only [List.countP_cons, hrec.2]
          omega

theorem jaro_loop_spec :
    ∀ (a : List Char) (i sr : Nat) (bcs : List (Char × Bool))
      (bmi m t : Nat),
      m ≤ (jaro_loop a i sr bcs bmi m t).1 ∧
      (jaro_loop a i sr bcs bmi m t).1 ≤ m + a.length ∧
      (jaro_loop a i sr bcs bmi m t).1 + bcs.countP (fun p => p.2) ≤
        m + bcs.length ∧
      t ≤ (jaro_loop a i sr bcs bmi m t).2 ∧
      (jaro_loop a i sr bcs bmi m t).2 + m ≤ t + (jaro_loop a i sr bcs bmi m t).1 := by
  intro a
  induction a with
  | nil =>
    intro i sr bcs bmi m t
    have hc := List.countP_le_length (fun p : Char × Bool => p.2) (l := bcs)
    simp only [jaro_loop]
    omega
  | cons c rest ih =>
    intro i sr bcs bmi m t
    rw [jaro_loop]
    by_cases hwin : (if i > sr then i - sr else 0) > min (bcs.length - 1) (i + sr)
    · rw [if_pos hwin]
      have := ih (i + 1) sr bcs bmi m t
      simp only [List.length_cons]
      omega
    · rw [if_neg hwin]
      cases hf : find_in_window bcs 0 (if i > sr then i - sr else 0)
          (min (bcs.length - 1) (i + sr)) c with
      | none =>
        have := ih (i + 1) sr bcs bmi m t
        simp only [List.length_cons]
        omega
      | some r =>
        obtain ⟨j, bcs'⟩ := r
        have hspec := find_in_window_spec bcs 0 _ _ c j bcs' hf
        have hrec := ih (i + 1) sr bcs' j (m + 1) (if j < bmi then t + 1 else t)
        simp only [List.length_cons]
        by_cases hj : j < bmi
        · rw [if_pos hj] at hrec ⊢
          omega
        · rw [if_neg hj] at hrec ⊢
          omega

theorem jaro_nonneg (a b : Str) : 0 ≤ jaro a b := by
  unfold jaro
  by_cases hab : a = b
  · rw [if_pos hab]; norm_num
  · rw [if_neg hab]
    by_cases hlen : a.length = 0 ∨ b.length = 0
    · rw [if_pos hlen]
    · rw [if_neg hlen]
      by_cases h11 : a.length = 1 ∧ b.length = 1
      · rw [if_pos h11]
      · rw [if_neg h11]
        have hspec := jaro_loop_spec a 0 (max a.length b.length / 2 - 1)
          (b.map (fun c => (c, false))) 0 0 0
        set mt := jaro_loop a 0 (max a.length b.length / 2 - 1)
          (b.map (fun c => (c, false))) 0 0 0 with hmt
        by_cases hm : mt.1 = 0
        · rw [if_pos hm]
        · rw [if_neg hm]
          have ht : mt.2 ≤ mt.1 := by omega
          have h1 : (0 : ℚ) ≤ (mt.1 : ℚ) / a.length := by positivity
          have h2 : (0 : ℚ) ≤ (mt.1 : ℚ) / b.length := by positivity
          have h3 : (0 : ℚ) ≤ ((mt.1 : ℚ) - mt.2) / mt.1 := by
            apply div_nonneg
            · simp only [sub_nonneg]
              exact_mod_cast ht
            · positivity
          positivity

theorem jaro_le_one (a b : Str) : jaro a b ≤ 1 := by
  unfold jaro
  by_cases hab : a = b
  · rw [if_pos hab]
  · rw [if_neg hab]
    by_cases hlen : a.length = 0 ∨ b.length = 0
    · rw [if_pos hlen]; norm_num
    · rw [if_neg hlen]
      by_cases h11 : a.length = 1 ∧ b.length = 1
      · rw [if_pos h11]; norm_num
      · rw [if_neg h11]
        push_neg at hlen
        have hspec := jaro_loop_spec a 0 (max a.length b.length / 2 - 1)
          (b.map (fun c => (c, false))) 0 0 0
        rw [List.countP_map] at hspec
        have hcp : List.countP ((fun p : Char × Bool => p.2) ∘
            (fun c => (c, false))) b = 0 := by
          simp [Function.comp]
        rw [hcp, List.length_map] at hspec
        set mt := jaro_loop a 0 (max a.length b.length / 2 - 1)
          (b.map (fun c => (c, false))) 0 0 0 with hmt
        by_cases hm : mt.1 = 0
        · rw [if_pos hm]; norm_num
        · rw [if_neg hm]
          have hma : mt.1 ≤ a.length := by omega
          have hmb : mt.1 ≤ b.length := by omega
          have ht : mt.2 ≤ mt.1 := by omega
          have hapos : 0 < a.length := Nat.pos_of_ne_zero hlen.1
          have hbpos : 0 < b.length := Nat.pos_of_ne_zero hlen.2
          have hmpos : 0 < mt.1 := Nat.pos_of_ne_zero hm
          have h1 : (mt.1 : ℚ) / a.length ≤ 1 := by
            rw [div_le_one (by exact_mod_cast hapos)]
            exact_mod_cast hma
          have h2 : (mt.1 : ℚ) / b.length ≤ 1 := by
            rw [div_le_one (by exact_mod_cast hbpos)]
            exact_mod_cast hmb
          have h3 : ((mt.1 : ℚ) - mt.2) / mt.1 ≤ 1 := by
            rw [div_le_one (by exact_mod_cast hmpos)]
            have : (0 : ℚ) ≤ (mt.2 : ℚ) := by positivity
            linarith
          linarith

theorem base_score_nonneg (text : Str) (t : Title) :
    0 ≤ base_score text t := by
  unfold base_score
  cases t.original_title with
  | none => exact jaro_nonneg _ _
  | some o => exact le_max_of_le_left (jaro_nonneg _ _)

theorem base_score_le_one (text : Str) (t : Title) :
    base_score text t ≤ 1 := by
  unfold base_score
  cases t.original_title with
  | none => exact jaro_le_one _ _
  | some o => exact max_le (jaro_le_one _ _) (jaro_le_one _ _)

theorem year_mult_bounds (year : Option Int) (t : Title) :
    0 ≤ year_mult year t ∧ year_mult year t ≤ 1 := by
  unfold year_mult
  cases year with
  | none => norm_num
  | some y =>
    dsimp only
    by_cases h : (t.year : Int) ≠ y
    · rw [if_pos h]; norm_num
    · rw [if_neg h]; norm_num

theorem kind_mult_bounds (t : Title) :
    0 ≤ kind_mult t ∧ kind_mult t ≤ 1 := by
  unfold kind_mult
  cases t.kind <;> norm_num

theorem scoring_func_nonneg (text : Str) (year : Option Int) (t : Title) :
    0 ≤ scoring_func text year t := by
  unfold scoring_func
  have h1 := base_score_nonneg text t
  have h2 := (year_mult_bounds year t).1
  have h3 := (kind_mult_bounds t).1
  positivity

theorem scoring_func_le_one (text : Str) (year : Option Int) (t : Title) :
    scoring_func text year t ≤ 1 := by
  unfold scoring_func
  have h1 := base_score_nonneg text t
  have h1' := base_score_le_one text t
  have h2 := year_mult_bounds year t
  have h3 := kind_mult_bounds t
  calc base_score text t * year_mult year t * kind_mult t
      ≤ 1 * 1 * 1 := by
        apply mul_le_mul (mul_le_mul h1' h2.2 h2.1 (by norm_num)) h3.2 h3.1
        norm_num
    _ = 1 := by norm_num

/-- Claim C10. The `NonNan` panic branch is unreachable from `lookup`: for
every query text and record, the Jaro base similarity lies in `[0, 1]`
and the year/kind multipliers keep the final score in `[0, 1]`, so every
score is a well-defined (non-NaN) value, and the comparison used by the
descending score sort is total on computed scores. -/
theorem scoring_func_in_unit_interval (text : Str) (year : Option Int)
    (t : Title) :
    0 ≤ base_score text t ∧ base_score text t ≤ 1 ∧
    0 ≤ scoring_func text year t ∧ scoring_func text year t ≤ 1 ∧
    (∀ x y : ℚ × Title, score_le x y = true ∨ score_le y x = true) :=
  ⟨base_score_nonneg text t, base_score_le_one text t,
    scoring_func_nonneg text year t, scoring_func_le_one text year t,
    fun x y => by
      unfold score_le
      rcases le_total y.1 x.1 with h | h
      · exact Or.inl (by simpa using h)
      · exact Or.inr (by simpa using h)⟩

/-! ## Sorting lemmas -/

theorem insert_stable_perm (le : α → α → Bool) (a : α) (l : List α) :
    (insert_stable le a l).Perm (a :: l) := by
  induction l with
  | nil => simp [insert_stable]
  | cons b t ih =>
    unfold insert_stable
    by_cases h : le b a
    · rw [if_pos h]
      exact (ih.cons b).trans (List.Perm.swap a b t)
    · rw [if_neg h]

theorem sort_stable_perm (le : α → α → Bool) (l : List α) :
    (sort_stable le l).Perm l := by
  have main : ∀ (l acc : List α),
      (l.foldl (fun acc a => insert_stable le a acc) acc).Perm (acc ++ l) := by
    intro l
    induction l with
    | nil => simp
    | cons x xs ih =>
      intro acc
      simp only [List.foldl_cons]
      refine (ih (insert_stable le x acc)).trans ?_
      have h1 : (insert_stable le x acc ++ xs).Perm ((x :: acc) ++ xs) :=
        (insert_stable_perm le x acc).append_right xs
      refine h1.trans ?_
      exact List.perm_middle.symm
  simpa using main l []

theorem insert_stable_pairwise (le : α → α → Bool)
    (htrans : ∀ a b c, le a b = true → le b c = true → le a c = true)
    (htotal : ∀ a b, le a b = true ∨ le b a = true) (a : α) (l : List α)
    (h : l.Pairwise (fun x y => le x y = true)) :
    (insert_stable le a l).Pairwise (fun x y => le x y = true) := by
  induction l with
  | nil => simp [insert_stable]
  | cons b t ih =>
    rw [List.pairwise_cons] at h
    obtain ⟨hb, ht⟩ := h
    unfold insert_stable
    by_cases hba : le b a
    · rw [if_pos hba]
      rw [List.pairwise_cons]
      refine ⟨?_, ih ht⟩
      intro x hx
      have hx' := (insert_stable_perm le a t).mem_iff.mp hx
      rcases List.mem_cons.mp hx' with rfl | hx'
      · exact hba
      · exact hb x hx'
    · rw [if_neg hba]
      have hab : le a b = true := (htotal a b).resolve_right (by simpa using hba)
      rw [List.pairwise_cons]
      refine ⟨?_, List.pairwise_cons.mpr ⟨hb, ht⟩⟩
      intro x hx
      rcases List.mem_cons.mp hx with rfl | hx
      · exact hab
      · exact htrans a b x hab (hb x hx)

theorem sort_stable_pairwise (le : α → α → Bool)
    (htrans : ∀ a b c, le a b = true → le b c = true → le a c = true)
    (htotal : ∀ a b, le a b = true ∨ le b a = true) (l : List α) :
    (sort_stable le l).Pairwise (fun x y => le x y = true) := by
  have main : ∀ (l acc : List α),
      acc.Pairwise (fun x y => le x y = true) →
      (l.foldl (fun acc a => insert_stable le a acc) acc).Pairwise
        (fun x y => le x y = true) := by
    intro l
    induction l with
    | nil => intro acc h; exact h
    | cons x xs ih =>
      intro acc h
      simp only [List.foldl_cons]
      exact ih _ (insert_stable_pairwise le htrans htotal x acc h)
  exact main l [] (by simp)

theorem score_le_trans (a b c : ℚ × Title) (h1 : score_le a b = true)
    (h2 : score_le b c = true) : score_le a c = true := by
  unfold score_le at h1 h2 ⊢
  simp only [decide_eq_true_eq] at h1 h2 ⊢
  exact h2.trans h1

theorem score_le_total (a b : ℚ × Title) :
    score_le a b = true ∨ score_le b a = true := by
  unfold score_le
  rcases le_total b.1 a.1 with h | h
  · exact Or.inl (by simpa using h)
  · exact Or.inr (by simpa using h)

theorem votes_le_trans (a b c : ℚ × Title) (h1 : votes_le a b = true)
    (h2 : votes_le b c = true) : votes_le a c = true := by
  unfold votes_le at h1 h2 ⊢
  simp only [decide_eq_true_eq] at h1 h2 ⊢
  exact h2.trans h1

theorem votes_le_total (a b : ℚ × Title) :
    votes_le a b = true ∨ votes_le b a = true := by
  unfold votes_le
  rcases le_total b.2.votes a.2.votes with h | h
  · exact Or.inl (by simpa using h)
  · exact Or.inr (by simpa using h)

/-! ## `most_common` characterization -/

/-- The maximum count of a counter (0 for the empty counter). -/
def max_count (l : CounterT) : Nat := l.foldr (fun p acc => max p.2 acc) 0

theorem most_common_aux_eq (l : CounterT) :
    ∀ (acc : List Title) (mc : Nat),
      most_common_aux l acc mc =
        if max_count l ≤ mc then
          acc ++ (l.filter (fun p => decide (p.2 = mc))).map Prod.fst
        else (l.filter (fun p => decide (p.2 = max_count l))).map Prod.fst := by
  induction l with
  | nil =>
    intro acc mc
    simp [most_common_aux, max_count]
  | cons p rest ih =>
    intro acc mc
    obtain ⟨k, c⟩ := p
    have hmax : max_count ((k, c) :: rest) = max c (max_count rest) := rfl
    rw [most_common_aux]
    by_cases hceq : c = mc
    · rw [if_pos hceq, ih]
      subst hceq
      by_cases hrest : max_count rest ≤ c
      · rw [if_pos hrest, if_pos (by rw [hmax]; omega)]
        simp [List.filter_cons]
      · rw [if_neg hrest, if_neg (by rw [hmax]; omega)]
        have hmx : max_count ((k, c) :: rest) = max_count rest := by
          rw [hmax]; omega
        rw [hmx]
        have hne : ¬ (c = max_count rest) := by omega
        simp [List.filter_cons, hne]
    · rw [if_neg hceq]
      by_cases hcge : c ≥ mc
      · rw [if_pos hcge, ih]
        have hcgt : c > mc := by omega
        have houter : ¬ max_count ((k, c) :: rest) ≤ mc := by
          rw [hmax]; omega
        by_cases hrest : max_count rest ≤ c
        · rw [if_pos hrest, if_neg houter]
          have hmx : max_count ((k, c) :: rest) = c := by rw [hmax]; omega
          rw [hmx]
          simp [List.filter_cons]
        · rw [if_neg hrest, if_neg houter]
          have hmx : max_count ((k, c) :: rest) = max_count rest := by
            rw [hmax]; omega
          rw [hmx]
          have hne : ¬ (c = max_count rest) := by omega
          simp [List.filter_cons, hne]
      · rw [if_neg hcge, ih]
        have hclt : c < mc := by omega
        by_cases hrest : max_count rest ≤ mc
        · rw [if_pos hrest, if_pos (by rw [hmax]; omega)]
          have hne : ¬ (c = mc) := by omega
          simp [List.filter_cons, hne]
        · rw [if_neg hrest, if_neg (by rw [hmax]; omega)]
          have hmx : max_count ((k, c) :: rest) = max_count rest := by
            rw [hmax]; omega
          rw [hmx]
          have hne : ¬ (c = max_count rest) := by omega
          simp [List.filter_cons, hne]

/-- `most_common` returns exactly the keys whose count attains the
maximum, in iteration order. -/
theorem most_common_eq (l : CounterT) :
    most_common l =
      (l.filter (fun p => decide (p.2 = max_count l))).map Prod.fst := by
  rw [most_common, most_common_aux_eq]
  by_cases h : max_count l ≤ 0
  · rw [if_pos h]
    have h0 : max_count l = 0 := by omega
    rw [h0]
    simp
  · rw [if_neg h]

theorem max_count_perm {l1 l2 : CounterT} (h : l1.Perm l2) :
    max_count l1 = max_count l2 := by
  unfold max_count
  induction h with
  | nil => rfl
  | cons x _ ih => simp [List.foldr_cons, ih]
  | swap x y l => simp only [List.foldr_cons]; omega
  | trans _ _ ih1 ih2 => rw [ih1, ih2]

theorem most_common_perm {l1 l2 : CounterT} (h : l1.Perm l2) :
    (most_common l1).Perm (most_common l2) := by
  rw [most_common_eq, most_common_eq, max_count_perm h]
  exact (h.filter _).map _

/-! ## The approximate tie band (lookup steps 5–6) -/

/-- The top score among the retained candidates (`0` when none). -/
def best_score (text : Str) (year : Option Int) (cands : List Title) : ℚ :=
  (cands.map (scoring_func text year)).foldr max 0

/-- The approximate-tie band of lookup step 5: every retained record
whose score is within an absolute `0.01` of the top score. -/
def tie_band (text : Str) (year : Option Int) (cands : List Title) :
    List Title :=
  cands.filter
    (fun t =>
      decide (|best_score text year cands - scoring_func text year t| ≤ 1 / 100))

theorem le_foldr_max {l : List ℚ} {a : ℚ} (h : a ∈ l) :
    a ≤ l.foldr max 0 := by
  induction l with
  | nil => simp at h
  | cons b t ih =>
    rcases List.mem_cons.mp h with rfl | h
    · exact le_max_left _ _
    · exact (ih h).trans (le_max_right _ _)

theorem foldr_max_le {l : List ℚ} {c : ℚ} (h : ∀ a ∈ l, a ≤ c)
    (h0 : 0 ≤ c) : l.foldr max 0 ≤ c := by
  induction l with
  | nil => simpa
  | cons b t ih =>
    simp only [List.foldr_cons, max_le_iff]
    exact ⟨h b (List.mem_cons_self _ _), ih fun a ha =>
      h a (List.mem_cons_of_mem _ ha)⟩

theorem filter_map_comm (f : α → β) (p : β → Bool) (l : List α) :
    (l.map f).filter p = (l.filter (fun x => p (f x))).map f := by
  induction l with
  | nil => rfl
  | cons a t ih =>
    simp only [List.map_cons, List.filter_cons]
    by_cases h : p (f a) = true
    · rw [if_pos h, if_pos h, List.map_cons, ih]
    · rw [if_neg h, if_neg h, ih]

theorem takeWhile_band_eq_filter (q d : ℚ) (l : List (ℚ × Title))
    (hsorted : l.Pairwise (fun x y => score_le x y = true))
    (hle : ∀ m ∈ l, m.1 ≤ q) :
    l.takeWhile (fun m => decide (|q - m.1| ≤ d)) =
      l.filter (fun m => decide (|q - m.1| ≤ d)) := by
  induction l with
  | nil => rfl
  | cons m ms ih =>
    rw [List.pairwise_cons] at hsorted
    obtain ⟨hhead, htail⟩ := hsorted
    by_cases hP : |q - m.1| ≤ d
    · rw [List.takeWhile_cons, List.filter_cons, if_pos (by simpa using hP),
        if_pos (by simpa using hP)]
      rw [ih htail fun x hx => hle x (List.mem_cons_of_mem _ hx)]
    · rw [List.takeWhile_cons, List.filter_cons, if_neg (by simpa using hP),
        if_neg (by simpa using hP)]
      symm
      rw [List.filter_eq_nil_iff]
      intro x hx
      have hxm : x.1 ≤ m.1 := by
        have := hhead x hx
        unfold score_le at this
        simpa using this
      have hmq : m.1 ≤ q := hle m (List.mem_cons_self _ _)
      have hxq : x.1 ≤ q := hxm.trans hmq
      have habs : ¬ (q - m.1 ≤ d) := by
        rw [abs_of_nonneg (by linarith)] at hP
        exact hP
      simp only [decide_eq_true_eq]
      rw [abs_of_nonneg (by linarith)]
      intro hcon
      exact habs (by linarith)

/-- Scores attached by `rank` are `scoring_func` values of candidates. -/
theorem mem_scored {text : Str} {year : Option Int} {cands : List Title}
    {m : ℚ × Title}
    (h : m ∈ cands.map (fun t => (scoring_func text year t, t))) :
    m.1 = scoring_func text year m.2 ∧ m.2 ∈ cands := by
  obtain ⟨t, ht, rfl⟩ := List.mem_map.mp h
  exact ⟨rfl, ht⟩

/-- Claim C2. When `rank` (the scoring/sorting tail of `lookup`) returns a
record, that record belongs to the approximate-tie band — the
top-scoring record together with every record whose score is within an
absolute `0.01` of the top score — and carries the maximal vote count of
the band; in particular a singleton band is returned as-is. -/
theorem rank_tie_band (text : Str) (year : Option Int)
    (cands : List Title) (r : Title)
    (h : rank text year cands = some r) :
    r ∈ tie_band text year cands ∧
    (∀ t ∈ tie_band text year cands, t.votes ≤ r.votes) ∧
    (∀ b, tie_band text year cands = [b] → r = b) := by
  have main : r ∈ tie_band text year cands ∧
      ∀ t ∈ tie_band text year cands, t.votes ≤ r.votes := by
    simp only [rank] at h
    cases hs : sort_stable score_le
        (cands.map (fun t => (scoring_func text year t, t))) with
    | nil => rw [hs] at h; simp at h
    | cons best rest =>
      rw [hs] at h
      simp only at h
      have hperm : (best :: rest).Perm
          (cands.map (fun t => (scoring_func text year t, t))) := by
        rw [← hs]; exact sort_stable_perm _ _
      have hpair : (best :: rest).Pairwise
          (fun x y => score_le x y = true) := by
        rw [← hs]
        exact sort_stable_pairwise _ score_le_trans score_le_total _
      rw [List.pairwise_cons] at hpair
      obtain ⟨hbesthead, hpairrest⟩ := hpair
      have hbestmem := hperm.mem_iff.mp (List.mem_cons_self best rest)
      obtain ⟨hbest1, hbest2⟩ := mem_scored hbestmem
      have hge : ∀ m ∈ cands.map (fun t => (scoring_func text year t, t)),
          m.1 ≤ best.1 := by
        intro m hm
        rcases List.mem_cons.mp (hperm.mem_iff.mpr hm) with rfl | hm'
        · exact le_refl _
        · have := hbesthead m hm'
          unfold score_le at this
          simpa using this
      have hbs : best_score text year cands = best.1 := by
        apply le_antisymm
        · apply foldr_max_le
          · intro a ha
            obtain ⟨t, ht, rfl⟩ := List.mem_map.mp ha
            exact hge _ (List.mem_map.mpr ⟨t, ht, rfl⟩)
          · rw [hbest1]
            exact scoring_func_nonneg _ _ _
        · apply le_foldr_max
          rw [hbest1]
          exact List.mem_map.mpr ⟨best.2, hbest2, rfl⟩
      have hrestle : ∀ m ∈ rest, m.1 ≤ best.1 := by
        intro m hm
        have := hbesthead m hm
        unfold score_le at this
        simpa using this
      have htw : rest.takeWhile
            (fun m => decide (|best.1 - m.1| ≤ 1 / 100)) =
          rest.filter (fun m => decide (|best.1 - m.1| ≤ 1 / 100)) :=
        takeWhile_band_eq_filter best.1 (1 / 100) rest hpairrest hrestle
      have hcand_perm :
          (rest.takeWhile (fun m => decide (|best.1 - m.1| ≤ 1 / 100)) ++
            [best]).Perm
            ((cands.map (fun t => (scoring_func text year t, t))).filter
              (fun m => decide (|best.1 - m.1| ≤ 1 / 100))) := by
        rw [htw]
        refine (List.perm_append_singleton best _).trans ?_
        have hfb : (fun m : ℚ × Title =>
            decide (|best.1 - m.1| ≤ 1 / 100)) best = true := by
          simp
        have hfil : ((best :: rest).filter
            (fun m => decide (|best.1 - m.1| ≤ 1 / 100))) =
            best :: rest.filter (fun m => decide (|best.1 - m.1| ≤ 1 / 100)) := by
          rw [List.filter_cons, if_pos hfb]
        rw [← hfil]
        exact hperm.filter _
      have hband_eq :
          ((cands.map (fun t => (scoring_func text year t, t))).filter
            (fun m => decide (|best.1 - m.1| ≤ 1 / 100))) =
          (tie_band text year cands).map
            (fun t => (scoring_func text year t, t)) := by
        rw [filter_map_comm]
        unfold tie_band
        congr 1
        apply List.filter_congr
        intro t ht
        rw [hbs]
      cases hs2 : sort_stable votes_le
          (rest.takeWhile (fun m => decide (|best.1 - m.1| ≤ 1 / 100)) ++
            [best]) with
      | nil =>
        exfalso
        have := sort_stable_perm votes_le
          (rest.takeWhile (fun m => decide (|best.1 - m.1| ≤ 1 / 100)) ++
            [best])
        rw [hs2] at this
        have hlen := this.length_eq
        simp at hlen
      | cons m0 s2rest =>
        rw [hs2] at h
        simp only [List.head?_cons, Option.map_some'] at h
        obtain rfl : m0.2 = r := by
          injection h
        have hs2perm : (m0 :: s2rest).Perm
            (rest.takeWhile (fun m => decide (|best.1 - m.1| ≤ 1 / 100)) ++
              [best]) := by
          rw [← hs2]; exact sort_stable_perm _ _
        have hs2pair : (m0 :: s2rest).Pairwise
            (fun x y => votes_le x y = true) := by
          rw [← hs2]
          exact sort_stable_pairwise _ votes_le_trans votes_le_total _
        rw [List.pairwise_cons] at hs2pair
        obtain ⟨hm0head, -⟩ := hs2pair
        have hm0cand := hs2perm.mem_iff.mp (List.mem_cons_self m0 s2rest)
        have hm0band :
            m0 ∈ (tie_band text year cands).map
              (fun t => (scoring_func text year t, t)) := by
          rw [← hband_eq]
          exact hcand_perm.mem_iff.mp hm0cand
        constructor
        · obtain ⟨t, ht, hteq⟩ := List.mem_map.mp hm0band
          have : t = m0.2 := by rw [← hteq]
          rw [← this]
          exact ht
        · intro t ht
          have htmem : (scoring_func text year t, t) ∈
              (tie_band text year cands).map
                (fun u => (scoring_func text year u, u)) :=
            List.mem_map.mpr ⟨t, ht, rfl⟩
          rw [← hband_eq] at htmem
          have htcand := hcand_perm.mem_iff.mpr htmem
          have hts2 := hs2perm.mem_iff.mpr htcand
          rcases List.mem_cons.mp hts2 with heq | hmem
          · rw [show t = m0.2 from (congrArg Prod.snd heq.symm).symm]
          · have := hm0head _ hmem
            unfold votes_le at this
            simpa using this
  refine ⟨main.1, main.2, ?_⟩
  intro b hb
  have := main.1
  rw [hb] at this
  simpa using this

/-! ## Counting-phase invariants, claims C1 and C2 -/

theorem counter_add_key_pred (P : Title → Prop) (c : CounterT) (t : Title)
    (hc : ∀ p ∈ c, P p.1) (ht : P t) : ∀ p ∈ counter_add c t, P p.1 := by
  intro p hp
  unfold counter_add at hp
  by_cases hany : c.any (fun q => q.1.id == t.id)
  · rw [if_pos hany] at hp
    obtain ⟨q, hq, hqe⟩ := List.mem_map.mp hp
    by_cases hqt : (q.1.id == t.id) = true
    · rw [if_pos hqt] at hqe
      rw [← hqe]
      exact hc q hq
    · rw [if_neg hqt] at hqe
      rw [← hqe]
      exact hc q hq
  · rw [if_neg hany] at hp
    rcases List.mem_append.mp hp with hp | hp
    · exact hc p hp
    · simp only [List.mem_singleton] at hp
      rw [hp]
      exact ht

theorem gather_ids_year_ok (imdb : Imdb) (year : Option Int) :
    ∀ (ids : List Nat) (c c' : CounterT),
      gather_ids imdb year ids c = some c' →
      (∀ p ∈ c, year_ok year p.1 = true) →
      ∀ p ∈ c', year_ok year p.1 = true := by
  intro ids
  induction ids with
  | nil =>
    intro c c' h hc
    rw [gather_ids] at h
    obtain rfl := Option.some.injEq .. ▸ h
    exact hc
  | cons id rest ih =>
    intro c c' h hc
    rw [gather_ids] at h
    cases ht : tableLookup imdb.titles id with
    | none => rw [ht] at h; simp at h
    | some t =>
      rw [ht] at h
      dsimp only at h
      by_cases hok : year_ok year t = true
      · rw [if_pos hok] at h
        exact ih _ _ h
          (counter_add_key_pred (fun u => year_ok year u = true) c t hc hok)
      · rw [if_neg hok] at h
        exact ih _ _ h hc

theorem gather_tags_year_ok (imdb : Imdb) (year : Option Int) :
    ∀ (tags : List Str) (c c' : CounterT),
      gather_tags imdb year tags c = some c' →
      (∀ p ∈ c, year_ok year p.1 = true) →
      ∀ p ∈ c', year_ok year p.1 = true := by
  intro tags
  induction tags with
  | nil =>
    intro c c' h hc
    rw [gather_tags] at h
    obtain rfl := Option.some.injEq .. ▸ h
    exact hc
  | cons tag rest ih =>
    intro c c' h hc
    rw [gather_tags] at h
    cases hi : indexLookup imdb.index tag with
    | none =>
      rw [hi] at h
      exact ih _ _ h hc
    | some ids =>
      rw [hi] at h
      dsimp only at h
      cases hg : gather_ids imdb year ids c with
      | none => rw [hg] at h; simp at h
      | some c'' =>
        rw [hg] at h
        exact ih _ _ h (gather_ids_year_ok imdb year ids c c'' hg hc)

theorem gather_counts_year_ok (imdb : Imdb) (tags : List Str)
    (year : Option Int) (c : CounterT)
    (h : gather_counts imdb tags year = some c) :
    ∀ p ∈ c, year_ok year p.1 = true :=
  gather_tags_year_ok imdb year tags [] c h (by simp)

theorem most_common_mem_keys (l : CounterT) (t : Title)
    (h : t ∈ most_common l) : ∃ p ∈ l, p.1 = t := by
  rw [most_common_eq] at h
  obtain ⟨p, hp, hpe⟩ := List.mem_map.mp h
  exact ⟨p, List.mem_of_mem_filter hp, hpe⟩

theorem tie_band_subset {text : Str} {year : Option Int}
    {cands : List Title} {t : Title} (h : t ∈ tie_band text year cands) :
    t ∈ cands := List.mem_of_mem_filter h

/-- Claim C1. With a provided query year, any record whose year differs
from it by more than one is excluded from the occurrence counting (so it
can never be returned), the `0.85` multiplier is applied exactly when
the record's year differs from the query year, and under the window
filter such a difference can only be exactly one year. -/
theorem lookup_year_window (imdb : Imdb) (text : Str) (y : Int) (r : Title)
    (h : imdb.lookup text (some y) = some (some r)) :
    (y - (r.year : Int)).natAbs ≤ 1 ∧
    (∀ c, gather_counts imdb (text_to_tags text) (some y) = some c →
      ∀ t : Title, 1 < (y - (t.year : Int)).natAbs →
        (∀ p ∈ c, p.1 ≠ t) ∧ t ∉ most_common c) ∧
    (∀ t : Title,
      year_mult (some y) t = if (t.year : Int) = y then 1 else 85 / 100) ∧
    (∀ t : Title, year_ok (some y) t = true →
      ((t.year : Int) ≠ y ↔ (y - (t.year : Int)).natAbs = 1)) := by
  refine ⟨?_, ?_, ?_, ?_⟩
  · rw [Imdb.lookup, Imdb.lookupWith] at h
    cases hg : gather_counts imdb (text_to_tags text) (some y) with
    | none => rw [hg] at h; simp at h
    | some c =>
      rw [hg] at h
      simp only [Option.some.injEq] at h
      have hr := rank_tie_band text (some y) (most_common c) r h
      have hrmem := tie_band_subset hr.1
      obtain ⟨p, hp, hpe⟩ := most_common_mem_keys c r hrmem
      have hok := gather_counts_year_ok imdb _ _ c hg p hp
      rw [hpe] at hok
      unfold year_ok at hok
      simpa using hok
  · intro c hc t hdiff
    have hok := gather_counts_year_ok imdb _ _ c hc
    have hkey : ∀ p ∈ c, p.1 ≠ t := by
      intro p hp hpt
      have := hok p hp
      rw [hpt] at this
      unfold year_ok at this
      simp only [decide_eq_true_eq] at this
      omega
    refine ⟨hkey, ?_⟩
    intro hmem
    obtain ⟨p, hp, hpe⟩ := most_common_mem_keys c t hmem
    exact hkey p hp hpe
  · intro t
    unfold year_mult
    by_cases ht : (t.year : Int) = y
    · simp [ht]
    · simp [ht]
  · intro t hok
    unfold year_ok at hok
    simp only [decide_eq_true_eq] at hok
    omega

/-- The two records of the spec's own "Matrix" scenario. -/
def exA : Title := ⟨1, 1999, 120, "matrix".toList, none, TitleKind.Movie, 500000⟩

def exB : Title := ⟨2, 2021, 120, "matrix".toList, none, TitleKind.Movie, 20000⟩

/-- The spec's scenario index: both records indexed under "matrix". -/
def exImdb : Imdb := ⟨[(1, exA), (2, exB)], build_reverse_index [exA, exB]⟩

/-- Claim C1, witness: looking up "matrix" with year 2000 returns the 1999
record (the 2021 record is outside the ±1 window). -/
theorem lookup_year_window_witness :
    exImdb.lookup "matrix".toList (some 2000) = some (some exA) ∧
    (2000 - (exA.year : Int)).natAbs ≤ 1 :=
  ⟨by decide,
    (lookup_year_window exImdb "matrix".toList 2000 exA (by decide)).1⟩

/-- Claim C2, witness: with two same-score candidates the higher-vote one
is returned, and it is in the tie band with maximal votes. -/
theorem rank_tie_band_witness :
    rank "matrix".toList none [exA, exB] = some exA ∧
    exA ∈ tie_band "matrix".toList none [exA, exB] ∧
    (∀ t ∈ tie_band "matrix".toList none [exA, exB], t.votes ≤ exA.votes) :=
  ⟨by decide,
    (rank_tie_band "matrix".toList none [exA, exB] exA (by decide)).1,
    (rank_tie_band "matrix".toList none [exA, exB] exA (by decide)).2.1⟩

/-! ## Claim C8: lookup determinism -/

theorem foldr_max_nonneg (l : List ℚ) : 0 ≤ l.foldr max 0 := by
  induction l with
  | nil => simp
  | cons a t ih => exact ih.trans (le_max_right _ _)

theorem best_score_perm {text : Str} {year : Option Int}
    {cands1 cands2 : List Title} (h : cands1.Perm cands2) :
    best_score text year cands1 = best_score text year cands2 := by
  have hm : (cands1.map (scoring_func text year)).Perm
      (cands2.map (scoring_func text year)) := h.map _
  apply le_antisymm
  · apply foldr_max_le
    · intro a ha
      exact le_foldr_max (hm.mem_iff.mp ha)
    · exact foldr_max_nonneg _
  · apply foldr_max_le
    · intro a ha
      exact le_foldr_max (hm.mem_iff.mpr ha)
    · exact foldr_max_nonneg _

theorem tie_band_perm {text : Str} {year : Option Int}
    {cands1 cands2 : List Title} (h : cands1.Perm cands2) :
    (tie_band text year cands1).Perm (tie_band text year cands2) := by
  unfold tie_band
  rw [best_score_perm h]
  exact h.filter _

/-- Claim C8. Amended: `lookup` is deterministic only up to the iteration
order of the occurrence counter's hash table.  For any two iteration
orders, the returned record always lies in the approximate-tie band of
the (order-independent) most-common set and carries the band's maximal
vote count — so two calls always agree on the returned record's votes,
and return the *same* record whenever at most one band member attains
that maximal vote count.  When several candidates tie on both score and
votes, the returned record may differ between calls (see the
counterexample). -/
theorem lookupWith_order_insensitivity (imdb : Imdb) (text : Str)
    (year : Option Int) (f g : CounterT → CounterT)
    (hf : ∀ c, (f c).Perm c) (hg : ∀ c, (g c).Perm c)
    (c : CounterT) (hc : gather_counts imdb (text_to_tags text) year = some c)
    (r1 r2 : Title)
    (h1 : imdb.lookupWith text year f = some (some r1))
    (h2 : imdb.lookupWith text year g = some (some r2)) :
    r1 ∈ tie_band text year (most_common c) ∧
    r2 ∈ tie_band text year (most_common c) ∧
    r1.votes = r2.votes ∧
    ((∀ t1 ∈ tie_band text year (most_common c),
        ∀ t2 ∈ tie_band text year (most_common c),
          t1.votes = r1.votes → t2.votes = r1.votes → t1 = t2) →
      r1 = r2) := by
  rw [Imdb.lookupWith] at h1 h2
  rw [hc] at h1 h2
  simp only [Option.some.injEq] at h1 h2
  have hrank1 := rank_tie_band text year (most_common (f c)) r1 h1
  have hrank2 := rank_tie_band text year (most_common (g c)) r2 h2
  have hperm1 : (tie_band text year (most_common (f c))).Perm
      (tie_band text year (most_common c)) :=
    tie_band_perm (most_common_perm (hf c))
  have hperm2 : (tie_band text year (most_common (g c))).Perm
      (tie_band text year (most_common c)) :=
    tie_band_perm (most_common_perm (hg c))
  have hr1 : r1 ∈ tie_band text year (most_common c) :=
    hperm1.mem_iff.mp hrank1.1
  have hr2 : r2 ∈ tie_band text year (most_common c) :=
    hperm2.mem_iff.mp hrank2.1
  have hmax1 : ∀ t ∈ tie_band text year (most_common c),
      t.votes ≤ r1.votes := fun t ht =>
    hrank1.2.1 t (hperm1.mem_iff.mpr ht)
  have hmax2 : ∀ t ∈ tie_band text year (most_common c),
      t.votes ≤ r2.votes := fun t ht =>
    hrank2.2.1 t (hperm2.mem_iff.mpr ht)
  have hveq : r1.votes = r2.votes :=
    le_antisymm (hmax2 r1 hr1) (hmax1 r2 hr2)
  exact ⟨hr1, hr2, hveq, fun huniq =>
    huniq r1 hr1 r2 hr2 rfl hveq.symm⟩

/-- Two records tying on score and votes, distinguished only by id. -/
def exC : Title := ⟨1, 1999, 120, "matrix".toList, none, TitleKind.Movie, 100⟩

def exD : Title := ⟨2, 1999, 120, "matrix".toList, none, TitleKind.Movie, 100⟩

def exTieImdb : Imdb := ⟨[(1, exC), (2, exD)], build_reverse_index [exC, exD]⟩

/-- Claim C8, counterexample to the claim as stated: with two candidates
tying on both score and votes, the record returned by `lookup` depends
on the hash-table iteration order — insertion order returns one record,
reversed order the other — so two calls against the unmodified index
need not return the same record. -/
theorem lookup_order_counterexample :
    exTieImdb.lookupWith "matrix".toList none (fun c => c) =
        some (some exD) ∧
    exTieImdb.lookupWith "matrix".toList none List.reverse =
        some (some exC) ∧
    exC ≠ exD := by
  refine ⟨by decide, by decide, by decide⟩

/-- Claim C8, witness for the amended theorem: applying it to the tied
example with the identity and reversal orders shows both answers sit in
the tie band with equal votes. -/
theorem lookupWith_order_insensitivity_witness :
    exD ∈ tie_band "matrix".toList none
      (most_common [(exC, 1), (exD, 1)]) ∧
    exC ∈ tie_band "matrix".toList none
      (most_common [(exC, 1), (exD, 1)]) ∧
    exD.votes = exC.votes :=
  ⟨(lookupWith_order_insensitivity exTieImdb "matrix".toList none
      (fun c => c) List.reverse (fun c => List.Perm.refl c)
      (fun c => List.reverse_perm c) [(exC, 1), (exD, 1)] (by decide)
      exD exC (by decide) (by decide)).1,
   (lookupWith_order_insensitivity exTieImdb "matrix".toList none
      (fun c => c) List.reverse (fun c => List.Perm.refl c)
      (fun c => List.reverse_perm c) [(exC, 1), (exD, 1)] (by decide)
      exD exC (by decide) (by decide)).2.1,
   (lookupWith_order_insensitivity exTieImdb "matrix".toList none
      (fun c => c) List.reverse (fun c => List.Perm.refl c)
      (fun c => List.reverse_perm c) [(exC, 1), (exD, 1)] (by decide)
      exD exC (by decide) (by decide)).2.2.1⟩

/-! ## Pipeline invariants, claims C9 and C7 -/

theorem tableInsert_key_pred (P : Nat × Title → Prop) (tbl : TitleTable)
    (k : Nat) (v : Title) (h : ∀ p ∈ tbl, P p) (hkv : P (k, v))
    (hrepl : ∀ p ∈ tbl, p.1 = k → P (p.1, v)) :
    ∀ p ∈ tableInsert tbl k v, P p := by
  intro p hp
  unfold tableInsert at hp
  by_cases hany : tbl.any (fun q => q.1 == k)
  · rw [if_pos hany] at hp
    obtain ⟨q, hq, hqe⟩ := List.mem_map.mp hp
    by_cases hqk : (q.1 == k) = true
    · rw [if_pos hqk] at hqe
      rw [← hqe]
      exact hrepl q hq (by simpa using hqk)
    · rw [if_neg hqk] at hqe
      rw [← hqe]
      exact h q hq
  · rw [if_neg hany] at hp
    rcases List.mem_append.mp hp with hp | hp
    · exact h p hp
    · simp only [List.mem_singleton] at hp
      rw [hp]
      exact hkv

theorem read_titles_key_eq_id (rows : List BasicsRow)
    (vt : List (Nat × Nat)) :
    ∀ p ∈ read_titles rows vt, p.1 = p.2.id := by
  have main : ∀ (rows : List BasicsRow) (tbl : TitleTable),
      (∀ p ∈ tbl, p.1 = p.2.id) →
      ∀ p ∈ rows.foldl (read_titles_row vt) tbl, p.1 = p.2.id := by
    intro rows
    induction rows with
    | nil => intro tbl h; exact h
    | cons row rest ih =>
      intro tbl h
      simp only [List.foldl_cons]
      apply ih
      unfold read_titles_row
      cases row.is_adult with
      | none => exact h
      | some adult =>
        dsimp only
        by_cases ha : adult = 1
        · rw [if_pos ha]; exact h
        · rw [if_neg ha]
          cases parse_kind row.kind_str with
          | none => exact h
          | some kind =>
            dsimp only
            cases row.year with
            | none => exact h
            | some year =>
              cases row.runtime with
              | none => exact h
              | some runtime =>
                dsimp only
                by_cases hz : year = 0 ∨ runtime = 0
                · rw [if_pos hz]; exact h
                · rw [if_neg hz]
                  cases votesLookup vt row.id with
                  | none => exact h
                  | some votes =>
                    dsimp only
                    apply tableInsert_key_pred _ _ _ _ h rfl
                    intro p _ hp1
                    exact hp1
  exact main rows [] (by simp)

theorem tableLookup_isSome_of_mem {tbl : TitleTable} {k : Nat} {t : Title}
    (h : (k, t) ∈ tbl) : (tableLookup tbl k).isSome = true := by
  unfold tableLookup
  rw [Option.isSome_map']
  rw [List.find?_isSome]
  exact ⟨(k, t), h, by simp⟩

theorem tableLookup_mem {tbl : TitleTable} {k : Nat} {t : Title}
    (h : tableLookup tbl k = some t) : (k, t) ∈ tbl := by
  unfold tableLookup at h
  obtain ⟨p, hp⟩ := Option.map_eq_some'.mp h
  have hmem := List.mem_of_find?_eq_some hp.1
  have hk := List.find?_some hp.1
  simp only [beq_iff_eq] at hk
  have : p = (k, t) := by
    obtain ⟨p1, p2⟩ := p
    simp only at hk hp
    rw [hk, hp.2]
  rw [← this]
  exact hmem

/-- Well-formedness of the build: every id in any index bucket is a key
of the record table. -/
theorem create_index_wf (ratings : List RatingsRow)
    (basics : List BasicsRow) (tag : Str) (b : List Nat) (id : Nat)
    (hb : indexLookup (create_index ratings basics).index tag = some b)
    (hid : id ∈ b) :
    (tableLookup (create_index ratings basics).titles id).isSome = true := by
  have hmem : bucketMemB (create_index ratings basics).index tag id = true := by
    unfold bucketMemB
    rw [hb]
    simpa [List.elem_iff] using hid
  have hchar := (bucketMemB_build _ tag id).mp hmem
  obtain ⟨t, ht, -, rfl⟩ := hchar
  obtain ⟨p, hp, hpe⟩ := List.mem_map.mp ht
  have hkey := read_titles_key_eq_id basics (read_votes ratings) p hp
  rw [hpe] at hkey
  have : (t.id, t) ∈ (create_index ratings basics).titles := by
    rw [← hkey, ← hpe]
    exact hp
  exact tableLookup_isSome_of_mem this

theorem gather_ids_total (imdb : Imdb) (year : Option Int) :
    ∀ (ids : List Nat),
      (∀ id ∈ ids, (tableLookup imdb.titles id).isSome = true) →
      ∀ c, ∃ c', gather_ids imdb year ids c = some c' := by
  intro ids
  induction ids with
  | nil => intro _ c; exact ⟨c, rfl⟩
  | cons id rest ih =>
    intro h c
    rw [gather_ids]
    obtain ⟨t, ht⟩ := Option.isSome_iff_exists.mp
      (h id (List.mem_cons_self _ _))
    rw [ht]
    exact ih (fun i hi => h i (List.mem_cons_of_mem _ hi)) _

theorem gather_tags_total (imdb : Imdb) (year : Option Int)
    (hwf : ∀ tag b id, indexLookup imdb.index tag = some b → id ∈ b →
      (tableLookup imdb.titles id).isSome = true) :
    ∀ (tags : List Str) (c : CounterT),
      ∃ c', gather_tags imdb year tags c = some c' := by
  intro tags
  induction tags with
  | nil => intro c; exact ⟨c, rfl⟩
  | cons tag rest ih =>
    intro c
    rw [gather_tags]
    cases hi : indexLookup imdb.index tag with
    | none => exact ih c
    | some ids =>
      dsimp only
      obtain ⟨c'', hc''⟩ := gather_ids_total imdb year ids
        (fun id hid => hwf tag ids id hi hid) c
      rw [hc'']
      exact ih c''

/-- Claim C9. In every index produced by the build pipeline, each id
found in any index bucket is a key of the record table, and as a
consequence `lookup` is total: the record-table indexing never panics,
and every query returns either one record or the explicit no-match
answer. -/
theorem create_index_lookup_total (ratings : List RatingsRow)
    (basics : List BasicsRow) :
    (∀ tag b id,
      indexLookup (create_index ratings basics).index tag = some b →
      id ∈ b →
      (tableLookup (create_index ratings basics).titles id).isSome = true) ∧
    (∀ (text : Str) (year : Option Int),
      ∃ res : Option Title,
        (create_index ratings basics).lookup text year = some res) := by
  refine ⟨fun tag b id hb hid => create_index_wf ratings basics tag b id hb hid, ?_⟩
  intro text year
  rw [Imdb.lookup, Imdb.lookupWith]
  obtain ⟨c, hc⟩ := gather_tags_total (create_index ratings basics) year
    (fun tag b id hb hid => create_index_wf ratings basics tag b id hb hid)
    (text_to_tags text) []
  rw [show gather_counts (create_index ratings basics) (text_to_tags text)
      year = some c from hc]
  exact ⟨_, rfl⟩

/-- A small concrete corpus: id 1 passes the vote floor, id 2 fails it. -/
def exRatings : List RatingsRow := [⟨1, 60⟩, ⟨2, 10⟩]

def exBasics : List BasicsRow :=
  [⟨1, "movie".toList, "matrix".toList, "matrix".toList, some 0, some 1999,
     some 120⟩,
   ⟨2, "movie".toList, "zebra".toList, "zebra".toList, some 0, some 2005,
     some 90⟩]

/-- Claim C9, witness on the concrete corpus. -/
theorem create_index_lookup_total_witness :
    indexLookup (create_index exRatings exBasics).index "matrix".toList =
        some [1] ∧
    (tableLookup (create_index exRatings exBasics).titles 1).isSome = true ∧
    (∃ res : Option Title,
      (create_index exRatings exBasics).lookup "matrix".toList none =
        some res) :=
  ⟨by decide,
    (create_index_lookup_total exRatings exBasics).1 "matrix".toList [1] 1
      (by decide) (by decide),
    (create_index_lookup_total exRatings exBasics).2 "matrix".toList none⟩

theorem read_votes_entries (ratings : List RatingsRow) :
    ∀ p ∈ read_votes ratings,
      50 ≤ p.2 ∧ ∃ row ∈ ratings, row.id = p.1 ∧ row.votes = p.2 := by
  have main : ∀ (rows : List RatingsRow) (tbl : List (Nat × Nat)),
      (∀ p ∈ tbl, 50 ≤ p.2 ∧ ∃ row ∈ ratings, row.id = p.1 ∧ row.votes = p.2) →
      (∀ r ∈ rows, r ∈ ratings) →
      ∀ p ∈ rows.foldl
        (fun tbl r =>
          if r.votes ≥ 50 then
            (if tbl.any (fun p => p.1 == r.id) then
              tbl.map (fun p => if p.1 == r.id then (p.1, r.votes) else p)
            else tbl ++ [(r.id, r.votes)])
          else tbl) tbl,
        50 ≤ p.2 ∧ ∃ row ∈ ratings, row.id = p.1 ∧ row.votes = p.2 := by
    intro rows
    induction rows with
    | nil => intro tbl h _; exact h
    | cons r rest ih =>
      intro tbl h hsub
      simp only [List.foldl_cons]
      apply ih
      · intro p hp
        by_cases hv : r.votes ≥ 50
        · rw [if_pos hv] at hp
          by_cases hany : tbl.any (fun q => q.1 == r.id)
          · rw [if_pos hany] at hp
            obtain ⟨q, hq, hqe⟩ := List.mem_map.mp hp
            by_cases hqk : (q.1 == r.id) = true
            · rw [if_pos hqk] at hqe
              rw [← hqe]
              refine ⟨hv, r, hsub r (List.mem_cons_self _ _), ?_, rfl⟩
              have hq1 : q.1 = r.id := by simpa using hqk
              exact hq1.symm
            · rw [if_neg hqk] at hqe
              rw [← hqe]
              exact h q hq
          · rw [if_neg hany] at hp
            rcases List.mem_append.mp hp with hp | hp
            · exact h p hp
            · simp only [List.mem_singleton] at hp
              rw [hp]
              exact ⟨hv, r, hsub r (List.mem_cons_self _ _), rfl, rfl⟩
        · rw [if_neg hv] at hp
          exact h p hp
      · intro x hx
        exact hsub x (List.mem_cons_of_mem _ hx)
  intro p hp
  exact main ratings [] (by simp) (fun r hr => hr) p hp

theorem votesLookup_mem {vt : List (Nat × Nat)} {k v : Nat}
    (h : votesLookup vt k = some v) : (k, v) ∈ vt := by
  unfold votesLookup at h
  obtain ⟨p, hp⟩ := Option.map_eq_some'.mp h
  have hmem := List.mem_of_find?_eq_some hp.1
  have hk := List.find?_some hp.1
  simp only [beq_iff_eq] at hk
  have : p = (k, v) := by
    obtain ⟨p1, p2⟩ := p
    simp only at hk hp
    rw [hk, hp.2]
  rw [← this]
  exact hmem

theorem read_titles_keys_in_votes (rows : List BasicsRow)
    (vt : List (Nat × Nat)) :
    ∀ p ∈ read_titles rows vt, (votesLookup vt p.1).isSome = true := by
  have main : ∀ (rows : List BasicsRow) (tbl : TitleTable),
      (∀ p ∈ tbl, (votesLookup vt p.1).isSome = true) →
      ∀ p ∈ rows.foldl (read_titles_row vt) tbl,
        (votesLookup vt p.1).isSome = true := by
    intro rows
    induction rows with
    | nil => intro tbl h; exact h
    | cons row rest ih =>
      intro tbl h
      simp only [List.foldl_cons]
      apply ih
      unfold read_titles_row
      cases row.is_adult with
      | none => exact h
      | some adult =>
        dsimp only
        by_cases ha : adult = 1
        · rw [if_pos ha]; exact h
        · rw [if_neg ha]
          cases parse_kind row.kind_str with
          | none => exact h
          | some kind =>
            dsimp only
            cases row.year with
            | none => exact h
            | some year =>
              cases row.runtime with
              | none => exact h
              | some runtime =>
                dsimp only
                by_cases hz : year = 0 ∨ runtime = 0
                · rw [if_pos hz]; exact h
                · rw [if_neg hz]
                  cases hv : votesLookup vt row.id with
                  | none => exact h
                  | some votes =>
                    dsimp only
                    apply tableInsert_key_pred _ _ _ _ h
                    · simp [hv]
                    · intro p hp _
                      exact h p hp
  exact main rows [] (by simp)

theorem gather_tags_empty (imdb : Imdb) (year : Option Int) :
    ∀ (tags : List Str),
      (∀ tag ∈ tags, indexLookup imdb.index tag = none) →
      gather_tags imdb year tags [] = some [] := by
  intro tags
  induction tags with
  | nil => intro _; rfl
  | cons tag rest ih =>
    intro h
    rw [gather_tags, h tag (List.mem_cons_self _ _)]
    exact ih fun tg htg => h tg (List.mem_cons_of_mem _ htg)

/-- Claim C7. The ratings pass keeps only entries with at least 50 votes,
the basics pass keeps only records whose id is in the votes mapping, and
consequently a title whose every ratings row is below the floor appears
neither in the record table nor in any index bucket, and a query whose
tags hit no bucket at all (in particular, tags only that title would
have supplied, unshared by any survivor) yields the no-match answer. -/
theorem vote_floor_exclusion (ratings : List RatingsRow)
    (basics : List BasicsRow) (i : Nat)
    (hlow : ∀ row ∈ ratings, row.id = i → row.votes < 50) :
    (∀ p ∈ read_votes ratings, 50 ≤ p.2) ∧
    (∀ p ∈ read_titles basics (read_votes ratings),
      (votesLookup (read_votes ratings) p.1).isSome = true) ∧
    tableLookup (create_index ratings basics).titles i = none ∧
    (∀ tag, bucketMemB (create_index ratings basics).index tag i = false) ∧
    (∀ (text : Str) (year : Option Int),
      (∀ tag ∈ text_to_tags text,
        indexLookup (create_index ratings basics).index tag = none) →
      (create_index ratings basics).lookup text year = some none) := by
  have hvnone : votesLookup (read_votes ratings) i = none := by
    cases hv : votesLookup (read_votes ratings) i with
    | none => rfl
    | some v =>
      exfalso
      have hmem := votesLookup_mem hv
      obtain ⟨h50, row, hrow, hrid, hrv⟩ := read_votes_entries ratings _ hmem
      have := hlow row hrow hrid
      simp only at h50 hrv
      omega
  have htnone : tableLookup (create_index ratings basics).titles i = none := by
    cases ht : tableLookup (create_index ratings basics).titles i with
    | none => rfl
    | some t =>
      exfalso
      have hmem := tableLookup_mem ht
      have := read_titles_keys_in_votes basics (read_votes ratings) _ hmem
      simp only at this
      rw [hvnone] at this
      simp at this
  have hbucket : ∀ tag,
      bucketMemB (create_index ratings basics).index tag i = false := by
    intro tag
    by_contra hcon
    have htrue : bucketMemB (create_index ratings basics).index tag i = true := by
      simpa using hcon
    obtain ⟨t, ht, -, rfl⟩ := (bucketMemB_build _ tag i).mp htrue
    obtain ⟨p, hp, hpe⟩ := List.mem_map.mp ht
    have hkey := read_titles_key_eq_id basics (read_votes ratings) p hp
    rw [hpe] at hkey
    have hmem2 : (t.id, t) ∈ (create_index ratings basics).titles := by
      rw [← hkey, ← hpe]
      exact hp
    have hsome := tableLookup_isSome_of_mem hmem2
    rw [htnone] at hsome
    simp at hsome
  refine ⟨fun p hp => (read_votes_entries ratings p hp).1,
    read_titles_keys_in_votes basics (read_votes ratings), htnone, hbucket,
    ?_⟩
  intro text year hmiss
  rw [Imdb.lookup, Imdb.lookupWith]
  rw [show gather_counts (create_index ratings basics) (text_to_tags text)
      year = some [] from gather_tags_empty _ year (text_to_tags text) hmiss]
  rfl

/-- Claim C7, witness: in the concrete corpus the 10-vote title (id 2,
"zebra") is absent from the table, absent from every bucket we probe,
and looking up its tag yields no match. -/
theorem vote_floor_exclusion_witness :
    (∀ row ∈ exRatings, row.id = 2 → row.votes < 50) ∧
    tableLookup (create_index exRatings exBasics).titles 2 = none ∧
    bucketMemB (create_index exRatings exBasics).index "zebra".toList 2 =
      false ∧
    (create_index exRatings exBasics).lookup "zebra".toList none =
      some none :=
  ⟨by decide,
    (vote_floor_exclusion exRatings exBasics 2 (by decide)).2.2.1,
    (vote_floor_exclusion exRatings exBasics 2 (by decide)).2.2.2.1
      "zebra".toList,
    (vote_floor_exclusion exRatings exBasics 2 (by decide)).2.2.2.2
      "zebra".toList none (by decide)⟩

/-! ## Snapshot store (claim C5)

`Imdb::save` / `Imdb::load_index` serialize the `Imdb` struct with
`bincode` (1.x default configuration: fixed-width little-endian
integers, `u64` lengths, `u8` option tags, `u32` enum variant indices,
strings as `u64` byte length plus UTF-8 bytes) and wrap the byte stream
in gzip and file IO, which are outside the model: the model is the byte
level, one `Nat` per byte. -/

def encU16 (n : Nat) : List Nat := [n % 256, n / 256 % 256]

def encU32 (n : Nat) : List Nat :=
  [n % 256, n / 256 % 256, n / 65536 % 256, n / 16777216 % 256]

def encU64 (n : Nat) : List Nat :=
  [n % 256, n / 256 % 256, n / 65536 % 256, n / 16777216 % 256,
   n / 4294967296 % 256, n / 1099511627776 % 256,
   n / 281474976710656 % 256, n / 72057594037927936 % 256]

def decU16 : List Nat → Option (Nat × List Nat)
  | b0 :: b1 :: r => some (b0 + 256 * b1, r)
  | _ => none

def decU32 : List Nat → Option (Nat × List Nat)
  | b0 :: b1 :: b2 :: b3 :: r =>
    some (b0 + 256 * b1 + 65536 * b2 + 16777216 * b3, r)
  | _ => none

def decU64 : List Nat → Option (Nat × List Nat)
  | b0 :: b1 :: b2 :: b3 :: b4 :: b5 :: b6 :: b7 :: r =>
    some (b0 + 256 * b1 + 65536 * b2 + 16777216 * b3 +
      4294967296 * b4 + 1099511627776 * b5 + 281474976710656 * b6 +
      72057594037927936 * b7, r)
  | _ => none

/-- UTF-8 encoding of one character (Rust `String`s are UTF-8). -/
def utf8Bytes (c : Char) : List Nat :=
  let v := c.toNat
  if v < 0x80 then [v]
  else if v < 0x800 then [0xC0 + v / 64, 0x80 + v % 64]
  else if v < 0x10000 then
    [0xE0 + v / 4096, 0x80 + v / 64 % 64, 0x80 + v % 64]
  else
    [0xF0 + v / 262144, 0x80 + v / 4096 % 64, 0x80 + v / 64 % 64,
     0x80 + v % 64]

/-- The UTF-8 byte length of a string. -/
def utf8Len (s : Str) : Nat := (s.flatMap utf8Bytes).length

def encStr (s : Str) : List Nat := encU64 (utf8Len s) ++ s.flatMap utf8Bytes

def utf8DecodeChar : List Nat → Option (Char × List Nat)
  | [] => none
  | b0 :: r =>
    if b0 < 0x80 then some (Char.ofNat b0, r)
    else if b0 < 0xC0 then none
    else if b0 < 0xE0 then
      match r with
      | b1 :: r1 =>
        if 0x80 ≤ b1 ∧ b1 < 0xC0 then
          some (Char.ofNat ((b0 - 0xC0) * 64 + (b1 - 0x80)), r1)
        else none
      | _ => none
    else if b0 < 0xF0 then
      match r with
      | b1 :: b2 :: r2 =>
        if (0x80 ≤ b1 ∧ b1 < 0xC0) ∧ (0x80 ≤ b2 ∧ b2 < 0xC0) then
          some (Char.ofNat
            ((b0 - 0xE0) * 4096 + (b1 - 0x80) * 64 + (b2 - 0x80)), r2)
        else none
      | _ => none
    else if b0 < 0xF8 then
      match r with
      | b1 :: b2 :: b3 :: r3 =>
        if (0x80 ≤ b1 ∧ b1 < 0xC0) ∧ (0x80 ≤ b2 ∧ b2 < 0xC0) ∧
            (0x80 ≤ b3 ∧ b3 < 0xC0) then
          some (Char.ofNat
            ((b0 - 0xF0) * 262144 + (b1 - 0x80) * 4096 +
              (b2 - 0x80) * 64 + (b3 - 0x80)), r3)
        else none
      | _ => none
    else none

def decCharsAux : Nat → List Nat → Option Str
  | _, [] => some []
  | 0, _ :: _ => none
  | fuel + 1, b :: bs =>
    match utf8DecodeChar (b :: bs) with
    | none => none
    | some (c, r) =>
      match decCharsAux fuel r with
      | none => none
      | some cs => some (c :: cs)

def decStr (l : List Nat) : Option (Str × List Nat) :=
  match decU64 l with
  | none => none
  | some (n, r) =>
    if r.length < n then none
    else
      match decCharsAux n (r.take n) with
      | none => none
      | some cs => some (cs, r.drop n)

def encKind : TitleKind → List Nat
  | TitleKind.Movie => encU32 0
  | TitleKind.TvMovie => encU32 1
  | TitleKind.Video => encU32 2
  | TitleKind.Short => encU32 3

def decKind (l : List Nat) : Option (TitleKind × List Nat) :=
  match decU32 l with
  | none => none
  | some (n, r) =>
    if n = 0 then some (TitleKind.Movie, r)
    else if n = 1 then some (TitleKind.TvMovie, r)
    else if n = 2 then some (TitleKind.Video, r)
    else if n = 3 then some (TitleKind.Short, r)
    else none

def encOptStr : Option Str → List Nat
  | none => [0]
  | some s => 1 :: encStr s

def decOptStr : List Nat → Option (Option Str × List Nat)
  | [] => none
  | tag :: r =>
    if tag = 0 then some (none, r)
    else if tag = 1 then
      match decStr r with
      | none => none
      | some (s, r') => some (some s, r')
    else none

/-- `serde` field order of `struct Title`: `id`, `year`, `runtime`,
`primary_title`, `original_title`, `kind`, `votes`. -/
def encTitle (t : Title) : List Nat :=
  encU32 t.id ++ encU16 t.year ++ encU16 t.runtime ++
  encStr t.primary_title ++ encOptStr t.original_title ++
  encKind t.kind ++ encU32 t.votes

def decTitle (l : List Nat) : Option (Title × List Nat) :=
  match decU32 l with
  | none => none
  | some (id, r1) =>
    match decU16 r1 with
    | none => none
    | some (year, r2) =>
      match decU16 r2 with
      | none => none
      | some (runtime, r3) =>
        match decStr r3 with
        | none => none
        | some (primary, r4) =>
          match decOptStr r4 with
          | none => none
          | some (original, r5) =>
            match decKind r5 with
            | none => none
            | some (kind, r6) =>
              match decU32 r6 with
              | none => none
              | some (votes, r7) =>
                some (⟨id, year, runtime, primary, original, kind, votes⟩, r7)

def encListWith (f : α → List Nat) (l : List α) : List Nat :=
  encU64 l.length ++ l.flatMap f

def decListN (dec : List Nat → Option (α × List Nat)) :
    Nat → List Nat → Option (List α × List Nat)
  | 0, l => some ([], l)
  | n + 1, l =>
    match dec l with
    | none => none
    | some (a, r) =>
      match decListN dec n r with
      | none => none
      | some (as, r') => some (a :: as, r')

def decListWith (dec : List Nat → Option (α × List Nat)) (l : List Nat) :
    Option (List α × List Nat) :=
  match decU64 l with
  | none => none
  | some (n, r) => decListN dec n r

def encEntry (p : Nat × Title) : List Nat := encU32 p.1 ++ encTitle p.2

def decEntry (l : List Nat) : Option ((Nat × Title) × List Nat) :=
  match decU32 l with
  | none => none
  | some (k, r) =>
    match decTitle r with
    | none => none
    | some (t, r') => some ((k, t), r')

def encIndexEntry (q : Str × List Nat) : List Nat :=
  encStr q.1 ++ encListWith encU32 q.2

def decIndexEntry (l : List Nat) : Option ((Str × List Nat) × List Nat) :=
  match decStr l with
  | none => none
  | some (tag, r) =>
    match decListWith decU32 r with
    | none => none
    | some (b, r') => some ((tag, b), r')

/-- `Imdb::save` at the byte level: `bincode::serialize_into` writes the
`titles` map then the `index` map. -/
def save (imdb : Imdb) : List Nat :=
  encListWith encEntry imdb.titles ++ encListWith encIndexEntry imdb.index

/-- `Imdb::load_index` at the byte level:
`bincode::deserialize_from`. -/
def load (l : List Nat) : Option Imdb :=
  match decListWith decEntry l with
  | none => none
  | some (titles, r) =>
    match decListWith decIndexEntry r with
    | none => none
    | some (index, _) => some ⟨titles, index⟩

/-- Width constraints carried by the Rust types (`u32` id and votes,
`u16` year and runtime, `u64` lengths). -/
def TitleWF (t : Title) : Prop :=
  t.id < 4294967296 ∧ t.year < 65536 ∧ t.runtime < 65536 ∧
  t.votes < 4294967296 ∧ utf8Len t.primary_title < 18446744073709551616 ∧
  (t.original_title.map utf8Len).getD 0 < 18446744073709551616

def ImdbWF (imdb : Imdb) : Prop :=
  imdb.titles.length < 18446744073709551616 ∧
  imdb.index.length < 18446744073709551616 ∧
  (∀ p ∈ imdb.titles, p.1 < 4294967296 ∧ TitleWF p.2) ∧
  (∀ q ∈ imdb.index, utf8Len q.1 < 18446744073709551616 ∧
    q.2.length < 18446744073709551616 ∧ ∀ id ∈ q.2, id < 4294967296)

instance (t : Title) : Decidable (TitleWF t) := by
  unfold TitleWF
  infer_instance

instance (imdb : Imdb) : Decidable (ImdbWF imdb) := by
  unfold ImdbWF
  infer_instance

theorem decU16_enc (n : Nat) (h : n < 65536) (rest : List Nat) :
    decU16 (encU16 n ++ rest) = some (n, rest) := by
  simp only [encU16, List.cons_append, List.nil_append, decU16]
  have : n % 256 + 256 * (n / 256 % 256) = n := by omega
  rw [this]

theorem decU32_enc (n : Nat) (h : n < 4294967296) (rest : List Nat) :
    decU32 (encU32 n ++ rest) = some (n, rest) := by
  simp only [encU32, List.cons_append, List.nil_append, decU32]
  have : n % 256 + 256 * (n / 256 % 256) + 65536 * (n / 65536 % 256) +
      16777216 * (n / 16777216 % 256) = n := by omega
  rw [this]

theorem decU64_enc (n : Nat) (h : n < 18446744073709551616)
    (rest : List Nat) : decU64 (encU64 n ++ rest) = some (n, rest) := by
  simp only [encU64, List.cons_append, List.nil_append, decU64]
  have : n % 256 + 256 * (n / 256 % 256) + 65536 * (n / 65536 % 256) +
      16777216 * (n / 16777216 % 256) +
      4294967296 * (n / 4294967296 % 256) +
      1099511627776 * (n / 1099511627776 % 256) +
      281474976710656 * (n / 281474976710656 % 256) +
      72057594037927936 * (n / 72057594037927936 % 256) = n := by omega
  rw [this]

theorem char_toNat_lt (c : Char) : c.toNat < 1114112 := by
  rcases c.valid with h | h
  · exact lt_trans h (by norm_num)
  · exact h.2

theorem utf8DecodeChar_enc (c : Char) (rest : List Nat) :
    utf8DecodeChar (utf8Bytes c ++ rest) = some (c, rest) := by
  have hvalid := char_toNat_lt c
  unfold utf8Bytes
  by_cases h1 : c.toNat < 0x80
  · rw [if_pos h1]
    simp only [List.cons_append, List.nil_append, utf8DecodeChar]
    rw [if_pos h1, Char.ofNat_toNat]
  · rw [if_neg h1]
    by_cases h2 : c.toNat < 0x800
    · rw [if_pos h2]
      simp only [List.cons_append, List.nil_append, utf8DecodeChar]
      rw [if_neg (show ¬ 0xC0 + c.toNat / 64 < 0x80 by omega),
        if_neg (show ¬ 0xC0 + c.toNat / 64 < 0xC0 by omega),
        if_pos (show 0xC0 + c.toNat / 64 < 0xE0 by omega)]
      rw [if_pos (show 0x80 ≤ 0x80 + c.toNat % 64 ∧
        0x80 + c.toNat % 64 < 0xC0 by omega)]
      have harith : (0xC0 + c.toNat / 64 - 0xC0) * 64 +
          (0x80 + c.toNat % 64 - 0x80) = c.toNat := by omega
      rw [harith, Char.ofNat_toNat]
    · rw [if_neg h2]
      by_cases h3 : c.toNat < 0x10000
      · rw [if_pos h3]
        simp only [List.cons_append, List.nil_append, utf8DecodeChar]
        rw [if_neg (show ¬ 0xE0 + c.toNat / 4096 < 0x80 by omega),
          if_neg (show ¬ 0xE0 + c.toNat / 4096 < 0xC0 by omega),
          if_neg (show ¬ 0xE0 + c.toNat / 4096 < 0xE0 by omega),
          if_pos (show 0xE0 + c.toNat / 4096 < 0xF0 by omega)]
        rw [if_pos (show (0x80 ≤ 0x80 + c.toNat / 64 % 64 ∧
            0x80 + c.toNat / 64 % 64 < 0xC0) ∧
            0x80 ≤ 0x80 + c.toNat % 64 ∧
            0x80 + c.toNat % 64 < 0xC0 by omega)]
        have harith : (0xE0 + c.toNat / 4096 - 0xE0) * 4096 +
            (0x80 + c.toNat / 64 % 64 - 0x80) * 64 +
            (0x80 + c.toNat % 64 - 0x80) = c.toNat := by omega
        rw [harith, Char.ofNat_toNat]
      · rw [if_neg h3]
        simp only [List.cons_append, List.nil_append, utf8DecodeChar]
        rw [if_neg (show ¬ 0xF0 + c.toNat / 262144 < 0x80 by omega),
          if_neg (show ¬ 0xF0 + c.toNat / 262144 < 0xC0 by omega),
          if_neg (show ¬ 0xF0 + c.toNat / 262144 < 0xE0 by omega),
          if_neg (show ¬ 0xF0 + c.toNat / 262144 < 0xF0 by omega),
          if_pos (show 0xF0 + c.toNat / 262144 < 0xF8 by omega)]
        rw [if_pos (show ((0x80 ≤ 0x80 + c.toNat / 4096 % 64 ∧
            0x80 + c.toNat / 4096 % 64 < 0xC0) ∧
            (0x80 ≤ 0x80 + c.toNat / 64 % 64 ∧
              0x80 + c.toNat / 64 % 64 < 0xC0) ∧
            0x80 ≤ 0x80 + c.toNat % 64 ∧
            0x80 + c.toNat % 64 < 0xC0) by omega)]
        have harith : (0xF0 + c.toNat / 262144 - 0xF0) * 262144 +
            (0x80 + c.toNat / 4096 % 64 - 0x80) * 4096 +
            (0x80 + c.toNat / 64 % 64 - 0x80) * 64 +
            (0x80 + c.toNat % 64 - 0x80) = c.toNat := by omega
        rw [harith, Char.ofNat_toNat]

theorem utf8Bytes_length_pos (c : Char) : 0 < (utf8Bytes c).length := by
  unfold utf8Bytes
  by_cases h1 : c.toNat < 0x80
  · rw [if_pos h1]; simp
  · rw [if_neg h1]
    by_cases h2 : c.toNat < 0x800
    · rw [if_pos h2]; simp
    · rw [if_neg h2]
      by_cases h3 : c.toNat < 0x10000
      · rw [if_pos h3]; simp
      · rw [if_neg h3]; simp

theorem decCharsAux_enc (s : Str) :
    ∀ fuel, (s.flatMap utf8Bytes).length ≤ fuel →
      decCharsAux fuel (s.flatMap utf8Bytes) = some s := by
  induction s with
  | nil =>
    intro fuel _
    cases fuel <;> rfl
  | cons c cs ih =>
    intro fuel hfuel
    have hbytes : (c :: cs).flatMap utf8Bytes =
        utf8Bytes c ++ cs.flatMap utf8Bytes := by
      simp [List.flatMap_cons]
    rw [hbytes] at hfuel ⊢
    have hpos := utf8Bytes_length_pos c
    rw [List.length_append] at hfuel
    cases fuel with
    | zero => omega
    | succ f =>
      cases hb : utf8Bytes c with
      | nil => rw [hb] at hpos; simp at hpos
      | cons b t =>
        rw [List.cons_append]
        rw [show decCharsAux (f + 1) (b :: (t ++ cs.flatMap utf8Bytes)) =
            (match utf8DecodeChar (b :: (t ++ cs.flatMap utf8Bytes)) with
             | none => none
             | some (c, r) =>
               match decCharsAux f r with
               | none => none
               | some cs => some (c :: cs)) from rfl]
        rw [← List.cons_append, ← hb, utf8DecodeChar_enc c]
        have hrec : decCharsAux f (cs.flatMap utf8Bytes) = some cs := by
          apply ih
          rw [hb] at hfuel
          simp only [List.length_cons] at hfuel
          omega
        dsimp only
        rw [hrec]

theorem decStr_enc (s : Str) (h : utf8Len s < 18446744073709551616)
    (rest : List Nat) : decStr (encStr s ++ rest) = some (s, rest) := by
  unfold encStr decStr
  rw [List.append_assoc, decU64_enc _ h]
  dsimp only
  have hlen : utf8Len s = (s.flatMap utf8Bytes).length := rfl
  rw [if_neg (by
    rw [List.length_append, hlen]
    omega)]
  rw [hlen, List.take_left, List.drop_left]
  rw [decCharsAux_enc s _ (le_refl _)]

theorem decKind_enc (k : TitleKind) (rest : List Nat) :
    decKind (encKind k ++ rest) = some (k, rest) := by
  cases k with
  | Movie =>
    unfold encKind decKind
    rw [decU32_enc 0 (by norm_num) rest]
    simp
  | TvMovie =>
    unfold encKind decKind
    rw [decU32_enc 1 (by norm_num) rest]
    simp
  | Video =>
    unfold encKind decKind
    rw [decU32_enc 2 (by norm_num) rest]
    simp
  | Short =>
    unfold encKind decKind
    rw [decU32_enc 3 (by norm_num) rest]
    simp

theorem decOptStr_enc (o : Option Str)
    (h : (o.map utf8Len).getD 0 < 18446744073709551616) (rest : List Nat) :
    decOptStr (encOptStr o ++ rest) = some (o, rest) := by
  cases o with
  | none => rfl
  | some s =>
    simp only [encOptStr, List.cons_append]
    unfold decOptStr
    dsimp only
    rw [if_neg one_ne_zero, if_pos rfl]
    rw [decStr_enc s (by simpa using h) rest]

theorem decTitle_enc (t : Title) (h : TitleWF t) (rest : List Nat) :
    decTitle (encTitle t ++ rest) = some (t, rest) := by
  obtain ⟨id, year, runtime, primary, original, kind, votes⟩ := t
  obtain ⟨h1, h2, h3, h4, h5, h6⟩ := h
  unfold encTitle decTitle
  simp only [List.append_assoc]
  rw [decU32_enc id h1]
  dsimp only
  rw [decU16_enc year h2]
  dsimp only
  rw [decU16_enc runtime h3]
  dsimp only
  rw [decStr_enc primary h5]
  dsimp only
  rw [decOptStr_enc original h6]
  dsimp only
  rw [decKind_enc kind]
  dsimp only
  rw [decU32_enc votes h4]

theorem decEntry_enc (p : Nat × Title)
    (h : p.1 < 4294967296 ∧ TitleWF p.2) (rest : List Nat) :
    decEntry (encEntry p ++ rest) = some (p, rest) := by
  obtain ⟨k, t⟩ := p
  unfold encEntry decEntry
  simp only [List.append_assoc]
  rw [decU32_enc k h.1]
  dsimp only
  rw [decTitle_enc t h.2]

theorem decListN_enc (dec : List Nat → Option (α × List Nat))
    (f : α → List Nat) (l : List α)
    (hel : ∀ a ∈ l, ∀ r, dec (f a ++ r) = some (a, r)) (rest : List Nat) :
    decListN dec l.length (l.flatMap f ++ rest) = some (l, rest) := by
  induction l with
  | nil => rfl
  | cons a as ih =>
    simp only [List.flatMap_cons, List.length_cons, List.append_assoc]
    rw [show decListN dec (as.length + 1) (f a ++ (as.flatMap f ++ rest)) =
        (match dec (f a ++ (as.flatMap f ++ rest)) with
         | none => none
         | some (x, r) =>
           match decListN dec as.length r with
           | none => none
           | some (xs, r') => some (x :: xs, r')) from rfl]
    rw [hel a (List.mem_cons_self _ _) _]
    dsimp only
    rw [ih (fun x hx r => hel x (List.mem_cons_of_mem _ hx) r)]

theorem decListWith_enc (dec : List Nat → Option (α × List Nat))
    (f : α → List Nat) (l : List α)
    (hlen : l.length < 18446744073709551616)
    (hel : ∀ a ∈ l, ∀ r, dec (f a ++ r) = some (a, r)) (rest : List Nat) :
    decListWith dec (encListWith f l ++ rest) = some (l, rest) := by
  unfold encListWith decListWith
  rw [List.append_assoc, decU64_enc _ hlen]
  dsimp only
  exact decListN_enc dec f l hel rest

theorem decIndexEntry_enc (q : Str × List Nat)
    (h : utf8Len q.1 < 18446744073709551616 ∧
      q.2.length < 18446744073709551616 ∧ ∀ id ∈ q.2, id < 4294967296)
    (rest : List Nat) :
    decIndexEntry (encIndexEntry q ++ rest) = some (q, rest) := by
  obtain ⟨tag, b⟩ := q
  unfold encIndexEntry decIndexEntry
  simp only [List.append_assoc]
  rw [decStr_enc tag h.1]
  dsimp only
  rw [decListWith_enc decU32 encU32 b h.2.1
    (fun id hid r => decU32_enc id (h.2.2 id hid) r)]

/-- Claim C5. Round trip through the snapshot store: loading the bytes
written by `save` recovers the record table and inverted index exactly
(structural equality), for every well-typed index value — empty or
populated.  (The gzip wrapper and file IO on either side of the bincode
encoding are outside the model.) -/
theorem load_save_roundtrip (imdb : Imdb) (h : ImdbWF imdb) :
    load (save imdb) = some imdb := by
  obtain ⟨titles, index⟩ := imdb
  obtain ⟨hlt, hli, hts, his⟩ := h
  unfold save load
  rw [decListWith_enc decEntry encEntry titles hlt
    (fun p hp r => decEntry_enc p (hts p hp) r)]
  dsimp only
  rw [show encListWith encIndexEntry index =
      encListWith encIndexEntry index ++ [] from (List.append_nil _).symm]
  rw [decListWith_enc decIndexEntry encIndexEntry index hli
    (fun q hq r => decIndexEntry_enc q (his q hq) r)]

/-- Claim C5, witness: the round trip holds on the empty index and on the
two-record example index. -/
theorem load_save_roundtrip_witness :
    ImdbWF ⟨[], []⟩ ∧ load (save ⟨[], []⟩) = some ⟨[], []⟩ ∧
    ImdbWF exImdb ∧ load (save exImdb) = some exImdb :=
  ⟨by decide, load_save_roundtrip ⟨[], []⟩ (by decide),
    by decide, load_save_roundtrip exImdb (by decide)⟩

end Merovingian
